import Mathlib

/-!
Verification of the suggestion-mode engine (prosemirror-suggestion-mode).

Shallow embedding of `src/acceptReject.ts` (span locator + accept/reject
resolver) and of the suggestion-mode plugin's `appendTransaction`
(suggestion transformer).  The document provider (prosemirror-model) is
external to the repository; it is embedded at its interface as a flat
sequence of inline text nodes, each node carrying a text run and a set of
marks.  Positions are integers in the linear position space, a node's
footprint being its text length.  Mark identity (JavaScript object
identity, used by the `Map<Mark, …>` in `findSuggestionsInRange`) is
embedded as an explicit `id` field, following the spec's own design note
that "same mark instance" is an opaque identity distinct from the
attribute payload.
-/

namespace SuggMode

/-- A mark: `id` is the object identity, `name` the mark type name
(`suggestion_insert` / `suggestion_delete` for the two annotation kinds),
`username` and `data` the attribute payload `\x7bauthor, metadata\x7d`. -/
structure Mark where
  id : Nat
  name : String
  username : String
  data : List (String × String)
deriving DecidableEq, Repr

/-- An inline text node: a run of characters all wearing the same marks. -/
structure Node where
  text : List Char
  marks : List Mark
deriving DecidableEq, Repr

/-- A document: a flat sequence of inline text nodes. -/
abbrev NDoc := List Node

/-- One character of the document together with the marks it wears;
`chars` flattens a node document to this view, which is the byte-level
content the claims speak about. -/
structure CharM where
  ch : Char
  marks : List Mark
deriving DecidableEq, Repr

/-- Footprint of a node in the linear position space (text length). -/
def Node.size (n : Node) : Nat := n.text.length

/-- Total size of a document (`state.doc.content.size`). -/
def docSize (d : NDoc) : Nat := (d.map Node.size).sum

/-- Character-level flattening of a document. -/
def chars (d : NDoc) : List CharM :=
  d.flatMap (fun n => n.text.map (fun c => ⟨c, n.marks⟩))

/-- Nodes of a document annotated with their start positions, starting
at offset `k`. -/
def nodesListFrom (k : Nat) : NDoc → List (Node × Nat)
  | [] => []
  | n :: rest => (n, k) :: nodesListFrom (k + n.size) rest

/-- Nodes of a document annotated with their absolute start positions. -/
def nodesList (d : NDoc) : List (Node × Nat) := nodesListFrom 0 d

/-- Embedding of `doc.nodesBetween(from, to, visitor)`: visits each node
whose range strictly overlaps `[from, to)` (prosemirror condition
`pos < to && pos + nodeSize > from`). -/
def nodesBetween (d : NDoc) (a b : Nat) : List (Node × Nat) :=
  (nodesList d).filter (fun v => decide (v.2 < b) && decide (a < v.2 + v.1.size))

/-- Helper for `sliceN`: the part of the node list lying in absolute
range `[a, b)`, when the list starts at absolute position `pos`.
Partially covered nodes are split; empty pieces are dropped (prosemirror
never produces empty text nodes). -/
def sliceGo (a b : Nat) : Nat → NDoc → NDoc
  | _, [] => []
  | pos, n :: rest =>
    let lo := max a pos
    let hi := min b (pos + n.size)
    (if lo < hi then [Node.mk ((n.text.drop (lo - pos)).take (hi - lo)) n.marks] else [])
      ++ sliceGo a b (pos + n.size) rest

/-- Embedding of `doc.slice(a, b)` at the node level. -/
def sliceN (a b : Nat) (d : NDoc) : NDoc := sliceGo a b 0 d

/-- Embedding of `tr.delete(a, b)`: remove the content in `[a, b)`. -/
def deleteN (a b : Nat) (d : NDoc) : NDoc :=
  sliceN 0 a d ++ sliceN b (docSize d) d

/-- Removal of every mark with the given type name from a node list
(the body of a `RemoveMarkStep` produced by `tr.removeMark(a, b, markType)`,
which strips all marks of that type). -/
def stripNodes (nm : String) (d : NDoc) : NDoc :=
  d.map (fun n => ⟨n.text, n.marks.filter (fun m => m.name ≠ nm)⟩)

/-- Embedding of `tr.removeMark(a, b, markType)`: marks of that type are
removed from the content in `[a, b)`; content outside is untouched. -/
def removeMarkN (a b : Nat) (nm : String) (d : NDoc) : NDoc :=
  sliceN 0 a d ++ stripNodes nm (sliceN a b d) ++ sliceN b (docSize d) d

/-- Embedding of `Mark.addToSet`: adding a mark to a mark set replaces
any mark of the same type (a mark type excludes itself by default). -/
def addMarkToSet (m : Mark) (set : List Mark) : List Mark :=
  if m ∈ set then set else m :: set.filter (fun x => x.name ≠ m.name)

/-- Addition of a mark to every node of a node list. -/
def addNodes (m : Mark) (d : NDoc) : NDoc :=
  d.map (fun n => ⟨n.text, addMarkToSet m n.marks⟩)

/-- Embedding of `tr.addMark(a, b, mark)`. -/
def addMarkN (a b : Nat) (m : Mark) (d : NDoc) : NDoc :=
  sliceN 0 a d ++ addNodes m (sliceN a b d) ++ sliceN b (docSize d) d

/-- Embedding of `tr.replace(a, b, slice)` / a `ReplaceStep`'s effect. -/
def replaceN (a b : Nat) (slice : NDoc) (d : NDoc) : NDoc :=
  sliceN 0 a d ++ slice ++ sliceN b (docSize d) d

/-- Embedding of `doc.resolve(p).marks()` for inclusive marks: the marks
of the character before the position (of the character after, at the
document start). -/
def marksAt (d : NDoc) (p : Nat) : List Mark :=
  let L := chars d
  if p = 0 then ((L.head?).map CharM.marks).getD []
  else ((L.get? (p - 1)).map CharM.marks).getD []

/-- The two annotation mark type names tracked by the engine. -/
def isSuggestionName (s : String) : Bool :=
  s == "suggestion_insert" || s == "suggestion_delete"

/-! ### Span locator (`findSuggestionsInRange`) -/

/-- A located span: one suggestion mark instance with its merged
covering range (`MarkedRange` in the source; `from`/`to` are renamed
`fromPos`/`toPos` because `from` is a Lean keyword). -/
structure MarkedRange where
  mark : Mark
  fromPos : Nat
  toPos : Nat
deriving DecidableEq, Repr

/-- One `markRanges` update of `findSuggestionsInRange`: fetch the entry
for this mark instance (insertion-ordered, like a JS `Map`), defaulting
to `\x7bfrom: pos, to: pos\x7d`, then widen it with
`min(existing.from, pos)` / `max(existing.to, pos + node.nodeSize)`.
`endPos` is `pos + node.nodeSize`. -/
def updateRange (acc : List (Mark × Nat × Nat)) (mk : Mark) (pos endPos : Nat) :
    List (Mark × Nat × Nat) :=
  if acc.any (fun e => e.1 = mk) then
    acc.map (fun e => if e.1 = mk then (mk, min e.2.1 pos, max e.2.2 endPos) else e)
  else acc ++ [(mk, pos, endPos)]

/-- Processing of one visited node's mark list by `findSuggestionsInRange`. -/
def accumNode (pos endPos : Nat) (acc : List (Mark × Nat × Nat)) (marks : List Mark) :
    List (Mark × Nat × Nat) :=
  marks.foldl (fun a mk => if isSuggestionName mk.name then updateRange a mk pos endPos else a) acc

/-- Processing of all visited nodes by `findSuggestionsInRange`. -/
def accumAll (acc : List (Mark × Nat × Nat)) (visits : List (Node × Nat)) :
    List (Mark × Nat × Nat) :=
  visits.foldl (fun a v => accumNode v.2 (v.2 + v.1.size) a v.1.marks) acc

/-- Embedding of `findSuggestionsInRange(state, from, to)`: walk the
nodes overlapping the range once, accumulate a merged `\x7bfrom,to\x7d`
per suggestion mark instance, and return one entry per instance. -/
def findSuggestionsInRange (d : NDoc) (a b : Nat) : List MarkedRange :=
  (accumAll [] (nodesBetween d a b)).map (fun e => ⟨e.1, e.2.1, e.2.2⟩)

/-! ### Position maps (prosemirror-transform `StepMap` / `Mapping`) -/

/-- A step's position map: a list of `(start, oldSize, newSize)` ranges
in old-document coordinates, as in prosemirror's `StepMap`. -/
structure StepMap where
  ranges : List (Nat × Nat × Nat)
deriving DecidableEq, Repr

/-- Position mapping through a `StepMap`'s ranges with the default
association (`assoc = 1`), accumulating the running size `diff`. -/
def smapGo : List (Nat × Nat × Nat) → Int → Int → Int
  | [], diff, pos => pos + diff
  | (s, o, n) :: rest, diff, pos =>
    if pos < (s : Int) then pos + diff
    else if pos ≤ (s : Int) + (o : Int) then
      (if o ≠ 0 && pos == (s : Int) then (s : Int) + diff else (s : Int) + diff + (n : Int))
    else smapGo rest (diff + (n : Int) - (o : Int)) pos

/-- Embedding of `StepMap.map(pos)` (default association). -/
def stepMapApply (m : StepMap) (pos : Nat) : Nat :=
  (smapGo m.ranges 0 (pos : Int)).toNat

/-- Embedding of `Mapping.map(pos)`: the left-to-right fold of the
appended step maps. -/
def mapMaps (maps : List StepMap) (pos : Nat) : Nat :=
  maps.foldl (fun p m => stepMapApply m p) pos

/-- Step map of a deletion of `[a, b)` (with `a ≤ b`). -/
def delStepMap (a b : Nat) : StepMap := ⟨[(a, b - a, 0)]⟩

/-! ### Operations appended to a transaction -/

/-- One operation appended to an output transaction by the resolver or
the transformer. -/
inductive Op where
  | delete (a b : Nat)
  | replaceIns (a : Nat) (slice : NDoc)
  | addMark (a b : Nat) (m : Mark)
  | removeMarkOp (a b : Nat) (nm : String)
  | setSel (p : Nat)
deriving DecidableEq, Repr

/-- Effect of an appended operation on the transaction's document. -/
def opApply (d : NDoc) : Op → NDoc
  | .delete a b => deleteN a b d
  | .replaceIns a slice => replaceN a a slice d
  | .addMark a b m => addMarkN a b m d
  | .removeMarkOp a b nm => removeMarkN a b nm d
  | .setSel _ => d

/-- Step map contributed by an appended operation (mark and selection
operations map positions identically). -/
def opStepMap : Op → StepMap
  | .delete a b => delStepMap a b
  | .replaceIns a slice => ⟨[(a, 0, docSize slice)]⟩
  | .addMark _ _ _ => ⟨[]⟩
  | .removeMarkOp _ _ _ => ⟨[]⟩
  | .setSel _ => ⟨[]⟩

/-- Sequential application of appended operations to a document. -/
def applyOps (d : NDoc) (ops : List Op) : NDoc :=
  ops.foldl opApply d

/-! ### Accept/reject resolver (`processSuggestionsInRange`) -/

/-- The `acceptOrReject` argument. -/
inductive AR where
  | accept
  | reject
deriving DecidableEq, Repr

/-- The mark kind removed as content: `suggestion_delete` when accepting,
`suggestion_insert` when rejecting. -/
def markToDeleteOf : AR → String
  | .accept => "suggestion_delete"
  | .reject => "suggestion_insert"

/-- In-flight state of the resolver's output transaction: current
document, accumulated position maps (`tr.mapping`; `RemoveMarkStep`s
contribute identity maps), and appended operations. -/
structure ResolveState where
  doc : NDoc
  maps : List StepMap
  ops : List Op
deriving Repr

/-- Processing of one located span by the resolver: re-map its positions
through `tr.mapping`, then delete the range if its mark kind is the one
removed as content, else remove just the mark. -/
def resolveSpan (markToDelete : String) (st : ResolveState) (sp : MarkedRange) :
    ResolveState :=
  let adjustedFrom := mapMaps st.maps sp.fromPos
  let adjustedTo := mapMaps st.maps sp.toPos
  if sp.mark.name == markToDelete then
    ⟨deleteN adjustedFrom adjustedTo st.doc,
     st.maps ++ [delStepMap adjustedFrom adjustedTo],
     st.ops ++ [.delete adjustedFrom adjustedTo]⟩
  else
    ⟨removeMarkN adjustedFrom adjustedTo sp.mark.name st.doc,
     st.maps,
     st.ops ++ [.removeMarkOp adjustedFrom adjustedTo sp.mark.name]⟩

/-- Result of a resolver command: the returned boolean, the resulting
document, the appended operations, and whether the dispatched
transaction carried the `skipSuggestionOperation` meta flag. -/
structure RES where
  handled : Bool
  doc : NDoc
  ops : List Op
  skipMeta : Bool
deriving Repr

/-- Embedding of `processSuggestionsInRange(acceptOrReject, from, to)`
applied to a state: find all suggestions in the range; if none are found
or no dispatch function is supplied, return `false` without any edit;
otherwise build one transaction flagged `skipSuggestionOperation`,
process every span with positions adjusted through the transaction's own
mapping, dispatch it and return `true`. -/
def processSuggestionsInRange (acceptOrReject : AR) (a b : Nat)
    (state : NDoc) (dispatch : Bool) : RES :=
  let suggestions := findSuggestionsInRange state a b
  if suggestions.isEmpty || !dispatch then ⟨false, state, [], false⟩
  else
    let fin := suggestions.foldl (resolveSpan (markToDeleteOf acceptOrReject)) ⟨state, [], []⟩
    ⟨true, fin.doc, fin.ops, true⟩

/-- Embedding of `acceptSuggestionsInRange(from, to)`. -/
def acceptSuggestionsInRange (a b : Nat) (state : NDoc) (dispatch : Bool) : RES :=
  processSuggestionsInRange .accept a b state dispatch

/-- Embedding of `rejectSuggestionsInRange(from, to)`. -/
def rejectSuggestionsInRange (a b : Nat) (state : NDoc) (dispatch : Bool) : RES :=
  processSuggestionsInRange .reject a b state dispatch

/-- Embedding of `acceptAllSuggestions`: accept over `[0, doc.content.size]`. -/
def acceptAllSuggestions (state : NDoc) (dispatch : Bool) : RES :=
  acceptSuggestionsInRange 0 (docSize state) state dispatch

/-- Embedding of `rejectAllSuggestions`. -/
def rejectAllSuggestions (state : NDoc) (dispatch : Bool) : RES :=
  rejectSuggestionsInRange 0 (docSize state) state dispatch

/-! ### Suggestion transformer (`appendTransaction` of the plugin) -/

/-- A primitive edit step (the closed step set of prosemirror-transform
handled by the plugin): `replace` deletes `[a, b)` and inserts a slice
at `a`; `replaceAround` additionally preserves the gap `[gapFrom, gapTo)`
at offset `insertPos` of the slice; the two mark steps change marks only. -/
inductive Step where
  | replace (a b : Nat) (slice : NDoc)
  | replaceAround (a b gapFrom gapTo : Nat) (slice : NDoc) (insertPos : Nat)
  | addMarkStep (a b : Nat) (m : Mark)
  | removeMarkStep (a b : Nat) (m : Mark)
deriving DecidableEq, Repr

/-- The step's `from` position. -/
def stepFrom : Step → Nat
  | .replace a _ _ => a
  | .replaceAround a _ _ _ _ _ => a
  | .addMarkStep a _ _ => a
  | .removeMarkStep a _ _ => a

/-- The step's `to` position. -/
def stepTo : Step → Nat
  | .replace _ b _ => b
  | .replaceAround _ b _ _ _ _ => b
  | .addMarkStep _ b _ => b
  | .removeMarkStep _ b _ => b

/-- Whether `'slice' in step` holds (`isReplaceStep || isReplaceAroundStep`). -/
def stepIsReplaceLike : Step → Bool
  | .replace _ _ _ => true
  | .replaceAround _ _ _ _ _ _ => true
  | _ => false

/-- Size of `step.slice` for the two replace-like steps. -/
def stepSliceSize : Step → Nat
  | .replace _ _ s => docSize s
  | .replaceAround _ _ _ _ s _ => docSize s
  | _ => 0

/-- The `addedSliceSize` computed per step: `step.slice.size` for a
`ReplaceStep`, `gapTo - gapFrom + step.slice.size` for a
`ReplaceAroundStep`, and `removedSlice.size` otherwise. -/
def addedSliceSizeOf (step : Step) (removedSlice : NDoc) : Nat :=
  match step with
  | .replace _ _ s => docSize s
  | .replaceAround _ _ gf gt s _ => gt - gf + docSize s
  | _ => docSize removedSlice

/-- Mark attribute equality (`Mark.eq`: same type and attributes, the
comparison used by a `RemoveMarkStep`). -/
def markEqAttrs (m1 m2 : Mark) : Bool :=
  m1.name == m2.name && m1.username == m2.username && decide (m1.data = m2.data)

/-- Effect of one primitive step on a document (`Transform.step`). -/
def applyStep (d : NDoc) : Step → NDoc
  | .replace a b slice => replaceN a b slice d
  | .replaceAround a b gf gt slice ins =>
    sliceN 0 a d ++ sliceN 0 ins slice ++ sliceN gf gt d
      ++ sliceN ins (docSize slice) slice ++ sliceN b (docSize d) d
  | .addMarkStep a b m => addMarkN a b m d
  | .removeMarkStep a b m =>
    sliceN 0 a d
      ++ (sliceN a b d).map (fun n => ⟨n.text, n.marks.filter (fun x => !markEqAttrs x m)⟩)
      ++ sliceN b (docSize d) d

/-- Position map of one primitive step (`step.getMap()`). -/
def stepMapOf : Step → StepMap
  | .replace a b slice => ⟨[(a, b - a, docSize slice)]⟩
  | .replaceAround a b gf gt slice ins =>
    ⟨[(a, gf - a, ins), (gt, b - gt, docSize slice - ins)]⟩
  | .addMarkStep _ _ _ => ⟨[]⟩
  | .removeMarkStep _ _ _ => ⟨[]⟩

/-- The plugin's session state (`SuggestionModePluginState`). -/
structure PluginState where
  inSuggestionMode : Bool
  username : String
  data : List (String × String)
deriving DecidableEq, Repr

/-- A transaction's `suggestionTransactionKey` meta object; `Option`
fields model JavaScript key presence under object spread. -/
structure TrSuggMeta where
  inSuggestionMode? : Option Bool
  skipSuggestionOperation : Bool
  username? : Option String
  data : List (String × String)
deriving DecidableEq, Repr

/-- An input transaction: its `history$` meta flag, its optional
suggestion meta, and its steps. -/
structure InTr where
  historyMeta : Bool
  suggMeta : Option TrSuggMeta
  steps : List Step
deriving DecidableEq, Repr

/-- The per-transaction merged meta
`\x7b...pluginState, ...transactionMeta, data: mergedData\x7d`. -/
structure EffMeta where
  inSuggestionMode : Bool
  skipSuggestionOperation : Bool
  username : String
  data : List (String × String)
deriving DecidableEq, Repr

/-- Merging of the plugin state with a transaction's meta: present meta
keys override the plugin state; the `data` maps are merged with the
transaction's entries taking precedence (association-list semantics). -/
def effMeta (ps : PluginState) : Option TrSuggMeta → EffMeta
  | none => ⟨ps.inSuggestionMode, false, ps.username, ps.data⟩
  | some tm =>
    ⟨tm.inSuggestionMode?.getD ps.inSuggestionMode, tm.skipSuggestionOperation,
     tm.username?.getD ps.username, ps.data ++ tm.data⟩

/-- The transformer's output transaction (`tr = newState.tr` plus
appended operations), with `nextId` supplying the identity of each
freshly created mark object. -/
structure OutTr where
  doc : NDoc
  maps : List StepMap
  ops : List Op
  changed : Bool
  nextId : Nat
deriving Repr

/-- Appending of one operation to the output transaction. -/
def OutTr.push (t : OutTr) (op : Op) : OutTr :=
  ⟨opApply t.doc op, t.maps ++ [opStepMap op], t.ops ++ [op], t.changed, t.nextId⟩

/-- Characters of JavaScript `\s` relevant to this engine (the
whitespace test for removed slices). -/
def isWSChar (c : Char) : Bool :=
  c == ' ' || c == '\n' || c == '\t' || c == '\r' || c == '\x0b' || c == '\x0c'

/-- Text content of a slice (`slice.content.textBetween(0, size)`). -/
def textOfSlice (d : NDoc) : List Char := (chars d).map CharM.ch

/-- Modelled from the spec: `findNonStartingPos` (defined in the
repository's `helpers/nodePosition`, which is not included under `src/`)
snaps a resolved position "forward to the nearest position that is not
itself inside the interior of a node boundary".  In this flat inline
embedding every position between characters is a valid insertion point,
so the snap is the identity. -/
def findNonStartingPos (_d : NDoc) (p : Nat) : Nat := p

/-- Processing of one step by `appendTransaction` (plugin source lines
182-284): `removedSlice` is taken from the intermediate document; if an
existing suggestion mark covers `step.from` it is extended over the
inserted range when `addedSliceSize > 1` and the step is otherwise left
alone; else a non-whitespace removed slice is reinserted at the mapped
position and wrapped with a fresh `suggestion_delete` mark, and inserted
content is wrapped with a fresh `suggestion_insert` mark.  `restMaps`
are the maps of the input steps from the current one (inclusive) to the
end of the batch (`mapToNewDocPos`); `selFrom` is `newState.selection.from`. -/
def processStep (meta : EffMeta) (selFrom : Nat) (restMaps : List StepMap)
    (interDoc : NDoc) (step : Step) (out : OutTr) : OutTr :=
  let removedSlice := sliceN (stepFrom step) (stepTo step) interDoc
  let addedSliceSize := addedSliceSizeOf step removedSlice
  let extraInsertChars := 0
  let marksAtPos := marksAt interDoc (stepFrom step)
  let existingSuggestionMark := marksAtPos.find? (fun m => isSuggestionName m.name)
  match existingSuggestionMark with
  | some m =>
    if addedSliceSize > 1 then
      { out.push (.addMark (stepFrom step) (stepFrom step + addedSliceSize) m) with
        changed := true }
    else out
  | none =>
    let afterRemoved : Option (OutTr × Nat) :=
      if docSize removedSlice > 0 then
        if (textOfSlice removedSlice).all isWSChar then none
        else
          let isBackspace := stepIsReplaceLike step && stepSliceSize step == 0
            && selFrom == stepFrom step
          let f1 := mapMaps restMaps (stepFrom step)
          let f2 := mapMaps out.maps f1
          let f3 := findNonStartingPos out.doc f2
          let delMark : Mark := ⟨out.nextId, "suggestion_delete", meta.username, meta.data⟩
          let o1 := (out.push (.replaceIns f3 removedSlice)).push
            (.addMark f3 (f3 + docSize removedSlice) delMark)
          let o2 := if isBackspace then o1.push (.setSel f3) else o1
          some ({ o2 with changed := true, nextId := out.nextId + 1 }, f3)
      else some (out, stepFrom step)
    match afterRemoved with
    | none => out
    | some (o, f) =>
      if addedSliceSize > 0 then
        let addedFrom := f + docSize removedSlice
        let addedTo := addedFrom + addedSliceSize + extraInsertChars
        let insMark : Mark := ⟨o.nextId, "suggestion_insert", meta.username, meta.data⟩
        { o.push (.addMark addedFrom addedTo insMark) with
          changed := true, nextId := o.nextId + 1 }
      else o

/-- State threaded through the batch: the intermediate replay document
(`intermediateTr`), the delayed `lastStep`, and the output transaction. -/
structure LoopState where
  interDoc : NDoc
  lastStep : Option Step
  out : OutTr
deriving Repr

/-- Processing of one transaction's steps: before each step the previous
`lastStep` is replayed into the intermediate document; `trail` holds the
step maps of all later transactions' steps. -/
def processSteps (meta : EffMeta) (selFrom : Nat) (trail : List StepMap) :
    List Step → LoopState → LoopState
  | [], st => st
  | s :: rest, st =>
    let interDoc := match st.lastStep with
      | some ls => applyStep st.interDoc ls
      | none => st.interDoc
    let restMaps := stepMapOf s :: (rest.map stepMapOf ++ trail)
    let out := processStep meta selFrom restMaps interDoc s st.out
    processSteps meta selFrom trail rest ⟨interDoc, some s, out⟩

/-- Processing of the whole transaction list: a transaction flagged
`history$`, one whose merged meta has suggestion mode off, or one
carrying `skipSuggestionOperation`, is forwarded unchanged (it neither
appends operations nor is replayed into the intermediate document). -/
def goTrs (ps : PluginState) (selFrom : Nat) : List InTr → LoopState → LoopState
  | [], st => st
  | t :: rest, st =>
    let trail := (rest.flatMap InTr.steps).map stepMapOf
    let st' :=
      if t.historyMeta then st
      else
        let meta := effMeta ps t.suggMeta
        if !meta.inSuggestionMode then st
        else if meta.skipSuggestionOperation then st
        else processSteps meta selFrom trail t.steps st
    goTrs ps selFrom rest st'

/-- Application of one transaction's steps to a document. -/
def applyTrSteps (d : NDoc) (t : InTr) : NDoc := t.steps.foldl applyStep d

/-- Application of a transaction list to a document (`newState.doc`). -/
def applyAllTrs (oldDoc : NDoc) (ts : List InTr) : NDoc := ts.foldl applyTrSteps oldDoc

/-- Embedding of the plugin's `appendTransaction(transactions, oldState,
newState)`: the output transaction starts at `newState.doc`, every
processed step appends its rewritten operations, and the hook returns
the output transaction only when some step changed it (`changed ? tr :
null`).  `freshBase` supplies identities for freshly created mark
objects (distinctness from existing marks models object freshness). -/
def appendTransaction (ps : PluginState) (selFrom : Nat) (freshBase : Nat)
    (transactions : List InTr) (oldDoc : NDoc) : Option OutTr :=
  let newDoc := applyAllTrs oldDoc transactions
  let fin := goTrs ps selFrom transactions ⟨oldDoc, none, ⟨newDoc, [], [], false, freshBase⟩⟩
  if fin.out.changed then some fin.out else none

/-! ### Character-level semantic model of the resolver

The resolver's batch is characterized at the character level: with
`dn` the mark kind removed as content, a character at original position
`p` is deleted iff some located span of kind `dn` covers `p`, and a
surviving character loses exactly the marks whose type name matches a
covering span of the opposite kind. -/

/-- Whether span `sp` (of the kind removed as content, `dn`) deletes
original position `p`. -/
def killsP (dn : String) (sp : MarkedRange) (p : Nat) : Bool :=
  sp.mark.name == dn && decide (sp.fromPos ≤ p) && decide (p < sp.toPos)

/-- Whether original position `p` survives all deletions of the span
list `P`. -/
def aliveL (dn : String) (P : List MarkedRange) (p : Nat) : Bool :=
  P.all (fun sp => !killsP dn sp p)

/-- Whether span `sp` (of the kept kind) strips marks named `nm` at
original position `p`. -/
def stripHit (dn : String) (sp : MarkedRange) (p : Nat) (nm : String) : Bool :=
  sp.mark.name != dn && decide (sp.fromPos ≤ p) && decide (p < sp.toPos) && nm == sp.mark.name

/-- Whether some span of `P` strips marks named `nm` at position `p`. -/
def stripL (dn : String) (P : List MarkedRange) (p : Nat) (nm : String) : Bool :=
  P.any (fun sp => stripHit dn sp p nm)

/-- The surviving character at position `p` after all mark removals. -/
def stripC (dn : String) (P : List MarkedRange) (p : Nat) (c : CharM) : CharM :=
  ⟨c.ch, c.marks.filter (fun m => !stripL dn P p m.name)⟩

/-- The character-level result of resolving the spans `P` against the
character list `L` starting at position `k`. -/
def modelGo (dn : String) (P : List MarkedRange) : Nat → List CharM → List CharM
  | _, [] => []
  | k, c :: L => (if aliveL dn P k then [stripC dn P k c] else []) ++ modelGo dn P (k + 1) L

/-- Number of surviving positions in `[k, x)`. -/
def cntAlive (dn : String) (P : List MarkedRange) (k x : Nat) : Nat :=
  if k < x then (if aliveL dn P k then 1 else 0) + cntAlive dn P (k + 1) x else 0
termination_by x - k

/-- Number of surviving positions below `x`: the semantic translation of
an original position into the resolved document. -/
def aliveBelow (dn : String) (P : List MarkedRange) (x : Nat) : Nat :=
  cntAlive dn P 0 x

/-- Position mapping of a single deletion of `[a, b)` (the collapse of
the deleted interior to its start). -/
def mapDel (a b x : Nat) : Nat :=
  if x < a then x else if x < b then a else x - (b - a)

/-- One style of single-name mark removal at the character level. -/
def strip1 (nm : String) (c : CharM) : CharM :=
  ⟨c.ch, c.marks.filter (fun m => m.name ≠ nm)⟩

/-- Addition of a mark at the character level. -/
def add1 (m : Mark) (c : CharM) : CharM :=
  ⟨c.ch, addMarkToSet m c.marks⟩

/-! ### Character-level views of the document operations -/

/-- Whether position `p` lies in the span's range. -/
def inRangeB (sp : MarkedRange) (p : Nat) : Bool :=
  decide (sp.fromPos ≤ p) && decide (p < sp.toPos)

/-- The operation the resolver appends for a span, given the spans
already processed: its positions are the span's, translated into the
document produced by the earlier spans. -/
def specOp (dn : String) (P : List MarkedRange) (sp : MarkedRange) : Op :=
  if sp.mark.name == dn then
    .delete (aliveBelow dn P sp.fromPos) (aliveBelow dn P sp.toPos)
  else
    .removeMarkOp (aliveBelow dn P sp.fromPos) (aliveBelow dn P sp.toPos) sp.mark.name

/-- The operations the resolver appends for a span list, each translated
through the edits of the spans before it. -/
def specOps (dn : String) (P : List MarkedRange) : List MarkedRange → List Op
  | [] => []
  | sp :: S => specOp dn P sp :: specOps dn (P ++ [sp]) S

/-- Occurrences of the mark instance `mk` in one visited node's mark
list: one `(pos, endPos)` pair per listing of the instance. -/
def occsOfMarks (mk : Mark) (marks : List Mark) (pos endPos : Nat) : List (Nat × Nat) :=
  marks.filterMap (fun m =>
    if m = mk ∧ isSuggestionName m.name then some (pos, endPos) else none)

/-- Occurrences of the mark instance `mk` over a visit list. -/
def occsOf (mk : Mark) (visits : List (Node × Nat)) : List (Nat × Nat) :=
  visits.flatMap (fun v => occsOfMarks mk v.1.marks v.2 (v.2 + v.1.size))

/-- One merge step of the running `\x7bfrom,to\x7d` range. -/
def mmStep : Option (Nat × Nat) → Nat × Nat → Option (Nat × Nat)
  | none, o => some o
  | some r, o => some (min r.1 o.1, max r.2 o.2)

/-- The running minimum of starts and maximum of ends over an
occurrence list. -/
def mmFold (r : Option (Nat × Nat)) (os : List (Nat × Nat)) : Option (Nat × Nat) :=
  os.foldl mmStep r

/-- Lookup of a mark instance's accumulated range (insertion order,
first match). -/
def lookupR : List (Mark × Nat × Nat) → Mark → Option (Nat × Nat)
  | [], _ => none
  | e :: rest, mk => if e.1 = mk then some e.2 else lookupR rest mk

/-- Keys of the accumulator, in insertion order. -/
def keysOf (acc : List (Mark × Nat × Nat)) : List Mark := acc.map Prod.fst

/-- Prosemirror documents never contain empty text nodes. -/
def WFdoc (d : NDoc) : Prop := ∀ n ∈ d, n.text ≠ []

/-- Distinct suggestion mark instances present in a document. -/
def suggMarksOf (d : NDoc) : List Mark :=
  (d.flatMap (fun n => n.marks.filter (fun m => isSuggestionName m.name))).dedup

theorem chars_append (x y : NDoc) : chars (x ++ y) = chars x ++ chars y := by
  simp [chars]

theorem docSize_append (x y : NDoc) : docSize (x ++ y) = docSize x + docSize y := by
  simp [docSize]

theorem chars_length (d : NDoc) : (chars d).length = docSize d := by
  induction d with
  | nil => rfl
  | cons n rest ih => simp [chars, docSize, Node.size] at ih ⊢; omega

theorem chars_sliceGo (a b : Nat) (d : NDoc) : ∀ pos : Nat,
    chars (sliceGo a b pos d) = ((chars d).take (b - pos)).drop (a - pos) := by
  induction d with
  | nil => intro pos; simp [sliceGo, chars]
  | cons n rest ih =>
    intro pos
    have hchars : chars (n :: rest) = n.text.map (fun c => CharM.mk c n.marks) ++ chars rest := by
      simp [chars]
    have hslice : sliceGo a b pos (n :: rest)
        = (if max a pos < min b (pos + n.size) then
            [Node.mk ((n.text.drop (max a pos - pos)).take (min b (pos + n.size) - max a pos))
              n.marks] else [])
          ++ sliceGo a b (pos + n.size) rest := rfl
    have hlen : (n.text.map (fun c => CharM.mk c n.marks)).length = n.size := by
      simp [Node.size]
    rw [hslice, chars_append, ih (pos + n.size), hchars]
    rw [List.take_append_eq_append_take, List.drop_append_eq_append_drop]
    congr 1
    · rw [List.drop_take]
      by_cases hguard : max a pos < min b (pos + n.size)
      · rw [if_pos hguard]
        have hone : chars [Node.mk ((n.text.drop (max a pos - pos)).take
              (min b (pos + n.size) - max a pos)) n.marks]
            = ((n.text.map (fun c => CharM.mk c n.marks)).drop (max a pos - pos)).take
              (min b (pos + n.size) - max a pos) := by
          simp [chars]
        rw [hone, show max a pos - pos = a - pos from by omega]
        rw [List.take_eq_take]
        simp only [List.length_drop, hlen]
        omega
      · rw [if_neg hguard]
        have hz : chars ([] : NDoc) = [] := rfl
        rw [hz]
        symm
        rw [List.take_eq_nil_iff]
        by_cases hk : b - pos - (a - pos) = 0
        · exact Or.inl hk
        · refine Or.inr (List.drop_eq_nil_of_le ?_)
          rw [hlen]
          omega
    · by_cases hcase : n.size ≤ b - pos
      · have h1 : b - (pos + n.size)
            = b - pos - (List.map (fun c => CharM.mk c n.marks) n.text).length := by
          rw [hlen]; omega
        have h2 : a - (pos + n.size)
            = a - pos - ((List.map (fun c => CharM.mk c n.marks) n.text).take (b - pos)).length := by
          rw [List.length_take, hlen]; omega
        rw [h1, h2]
      · have h1 : b - (pos + n.size) = 0 := by omega
        have h2 : b - pos - (List.map (fun c => CharM.mk c n.marks) n.text).length = 0 := by
          rw [hlen]; omega
        rw [h1, h2, List.take_zero]
        simp

theorem chars_sliceN (a b : Nat) (d : NDoc) :
    chars (sliceN a b d) = ((chars d).take b).drop a := by
  simpa using chars_sliceGo a b d 0

theorem chars_take_docSize (d : NDoc) : (chars d).take (docSize d) = chars d := by
  rw [← chars_length]; exact List.take_length (chars d)

theorem chars_deleteN (a b : Nat) (d : NDoc) :
    chars (deleteN a b d) = (chars d).take a ++ (chars d).drop b := by
  rw [deleteN, chars_append, chars_sliceN, chars_sliceN, chars_take_docSize]
  simp

theorem chars_stripNodes (nm : String) (d : NDoc) :
    chars (stripNodes nm d) = (chars d).map (strip1 nm) := by
  induction d with
  | nil => rfl
  | cons n rest ih =>
    simp only [stripNodes, List.map_cons, chars, List.flatMap_cons, List.map_append] at ih ⊢
    rw [ih]
    congr 1
    simp [strip1]

theorem chars_addNodes (m : Mark) (d : NDoc) :
    chars (addNodes m d) = (chars d).map (add1 m) := by
  induction d with
  | nil => rfl
  | cons n rest ih =>
    simp only [addNodes, List.map_cons, chars, List.flatMap_cons, List.map_append] at ih ⊢
    rw [ih]
    congr 1
    simp [add1]

theorem chars_removeMarkN (a b : Nat) (nm : String) (d : NDoc) :
    chars (removeMarkN a b nm d)
      = (chars d).take a ++ (((chars d).take b).drop a).map (strip1 nm)
        ++ (chars d).drop b := by
  rw [removeMarkN, chars_append, chars_append, chars_stripNodes, chars_sliceN, chars_sliceN,
    chars_sliceN, chars_take_docSize]
  simp

theorem chars_addMarkN (a b : Nat) (m : Mark) (d : NDoc) :
    chars (addMarkN a b m d)
      = (chars d).take a ++ (((chars d).take b).drop a).map (add1 m)
        ++ (chars d).drop b := by
  rw [addMarkN, chars_append, chars_append, chars_addNodes, chars_sliceN, chars_sliceN,
    chars_sliceN, chars_take_docSize]
  simp

theorem chars_replaceN (a b : Nat) (s d : NDoc) :
    chars (replaceN a b s d) = (chars d).take a ++ chars s ++ (chars d).drop b := by
  rw [replaceN, chars_append, chars_append, chars_sliceN, chars_sliceN, chars_take_docSize]
  simp

/-! ### Bookkeeping lemmas for the character-level model -/

theorem killsP_of_del {dn : String} {sp : MarkedRange} (hsp : sp.mark.name = dn) (p : Nat) :
    killsP dn sp p = inRangeB sp p := by
  simp [killsP, inRangeB, hsp]

theorem killsP_of_keep {dn : String} {sp : MarkedRange} (hsp : sp.mark.name ≠ dn) (p : Nat) :
    killsP dn sp p = false := by
  simp [killsP, hsp]

theorem aliveL_append_del {dn : String} {sp : MarkedRange} (hsp : sp.mark.name = dn)
    (P : List MarkedRange) (p : Nat) :
    aliveL dn (P ++ [sp]) p = (aliveL dn P p && !inRangeB sp p) := by
  simp [aliveL, List.all_append, killsP_of_del hsp]

theorem aliveL_append_keep {dn : String} {sp : MarkedRange} (hsp : sp.mark.name ≠ dn)
    (P : List MarkedRange) (p : Nat) :
    aliveL dn (P ++ [sp]) p = aliveL dn P p := by
  simp [aliveL, List.all_append, killsP_of_keep hsp]

theorem stripHit_of_del {dn : String} {sp : MarkedRange} (hsp : sp.mark.name = dn)
    (p : Nat) (nm : String) : stripHit dn sp p nm = false := by
  simp [stripHit, hsp]

theorem stripL_append_del {dn : String} {sp : MarkedRange} (hsp : sp.mark.name = dn)
    (P : List MarkedRange) (p : Nat) (nm : String) :
    stripL dn (P ++ [sp]) p nm = stripL dn P p nm := by
  simp [stripL, List.any_append, stripHit_of_del hsp]

theorem stripL_append_keep {dn : String} {sp : MarkedRange} (hsp : sp.mark.name ≠ dn)
    (P : List MarkedRange) (p : Nat) (nm : String) :
    stripL dn (P ++ [sp]) p nm
      = (stripL dn P p nm || (inRangeB sp p && nm == sp.mark.name)) := by
  simp only [stripL, List.any_append, List.any_cons, List.any_nil, Bool.or_false]
  congr 1
  have hne : (sp.mark.name != dn) = true := by simp [hsp]
  simp [stripHit, inRangeB, hne]

theorem stripC_append_del {dn : String} {sp : MarkedRange} (hsp : sp.mark.name = dn)
    (P : List MarkedRange) (p : Nat) (c : CharM) :
    stripC dn (P ++ [sp]) p c = stripC dn P p c := by
  simp [stripC, stripL_append_del hsp]

theorem stripC_append_keep_out {dn : String} {sp : MarkedRange} (hsp : sp.mark.name ≠ dn)
    (P : List MarkedRange) (p : Nat) (hout : inRangeB sp p = false) (c : CharM) :
    stripC dn (P ++ [sp]) p c = stripC dn P p c := by
  simp [stripC, stripL_append_keep hsp, hout]

theorem stripC_append_keep_in {dn : String} {sp : MarkedRange} (hsp : sp.mark.name ≠ dn)
    (P : List MarkedRange) (p : Nat) (hin : inRangeB sp p = true) (c : CharM) :
    stripC dn (P ++ [sp]) p c = strip1 sp.mark.name (stripC dn P p c) := by
  simp only [stripC, stripL_append_keep hsp, hin, strip1, Bool.true_and, List.filter_filter]
  congr 1
  apply List.filter_congr
  intro m _
  by_cases h1 : stripL dn P p m.name
  · simp [h1]
  · by_cases h2 : m.name = sp.mark.name
    · simp [h1, h2]
    · simp [h1, h2]

/-! ### Counting surviving positions -/

theorem cnt_lt (dn : String) (P : List MarkedRange) {k x : Nat} (h : k < x) :
    cntAlive dn P k x = (if aliveL dn P k then 1 else 0) + cntAlive dn P (k + 1) x := by
  rw [cntAlive, if_pos h]

theorem cnt_ge (dn : String) (P : List MarkedRange) {k x : Nat} (h : x ≤ k) :
    cntAlive dn P k x = 0 := by
  rw [cntAlive, if_neg (by omega)]

theorem cnt_of_dead (dn : String) (P : List MarkedRange) {k : Nat} (x : Nat)
    (h : aliveL dn P k = false) :
    cntAlive dn P k x = cntAlive dn P (k + 1) x := by
  by_cases hk : k < x
  · rw [cnt_lt dn P hk, h]
    simp
  · rw [cnt_ge dn P (by omega), cnt_ge dn P (by omega)]

theorem cnt_split (dn : String) (P : List MarkedRange) :
    ∀ (j k x : Nat), k + j ≤ x →
      cntAlive dn P k x = cntAlive dn P k (k + j) + cntAlive dn P (k + j) x := by
  intro j
  induction j with
  | zero =>
    intro k x _
    rw [Nat.add_zero, cnt_ge dn P (Nat.le_refl k)]
    omega
  | succ j ih =>
    intro k x h
    have hkx : k < x := by omega
    have hkj : k < k + (j + 1) := by omega
    rw [cnt_lt dn P hkx, cnt_lt dn P hkj]
    have h2 := ih (k + 1) x (by omega)
    rw [show k + (j + 1) = (k + 1) + j from by omega] at *
    omega

theorem cnt_mono (dn : String) (P : List MarkedRange) {k x y : Nat} (h1 : k ≤ x) (h2 : x ≤ y) :
    cntAlive dn P k x ≤ cntAlive dn P k y := by
  have := cnt_split dn P (x - k) k y (by omega)
  rw [show k + (x - k) = x from by omega] at this
  omega

theorem cnt_congr {dn : String} {P Q : List MarkedRange}
    (h : ∀ p, aliveL dn P p = aliveL dn Q p) :
    ∀ (j k : Nat), cntAlive dn P k (k + j) = cntAlive dn Q k (k + j) := by
  intro j
  induction j with
  | zero => intro k; rw [cnt_ge dn P (by omega), cnt_ge dn Q (by omega)]
  | succ j ih =>
    intro k
    rw [cnt_lt dn P (by omega), cnt_lt dn Q (by omega), h k]
    have := ih (k + 1)
    rw [show k + 1 + j = k + (j + 1) from by omega] at this
    omega

theorem cnt_congr' {dn : String} {P Q : List MarkedRange}
    (h : ∀ p, aliveL dn P p = aliveL dn Q p) {k x : Nat} :
    cntAlive dn P k x = cntAlive dn Q k x := by
  by_cases hk : k ≤ x
  · have := cnt_congr h (x - k) k
    rw [show k + (x - k) = x from by omega] at this
    exact this
  · rw [cnt_ge dn P (by omega), cnt_ge dn Q (by omega)]

theorem cnt_del_outside {dn : String} {sp : MarkedRange} (hsp : sp.mark.name = dn)
    (P : List MarkedRange) :
    ∀ (j k : Nat), (k + j ≤ sp.fromPos ∨ sp.toPos ≤ k) →
      cntAlive dn (P ++ [sp]) k (k + j) = cntAlive dn P k (k + j) := by
  intro j
  induction j with
  | zero => intro k _; rw [cnt_ge dn _ (by omega), cnt_ge dn P (by omega)]
  | succ j ih =>
    intro k hk
    have hin : inRangeB sp k = false := by
      simp only [inRangeB]
      rcases hk with h | h
      · have : ¬ sp.fromPos ≤ k := by omega
        simp [this]
      · have : ¬ k < sp.toPos := by omega
        simp [this]
    rw [cnt_lt dn _ (by omega), cnt_lt dn P (by omega), aliveL_append_del hsp, hin]
    have hk' : k + 1 + j ≤ sp.fromPos ∨ sp.toPos ≤ k + 1 := by
      rcases hk with h | h
      · exact Or.inl (by omega)
      · exact Or.inr (by omega)
    have := ih (k + 1) hk'
    rw [show k + 1 + j = k + (j + 1) from by omega] at this
    simp only [Bool.not_false, Bool.and_true]
    omega

theorem cnt_del_inside {dn : String} {sp : MarkedRange} (hsp : sp.mark.name = dn)
    (P : List MarkedRange) :
    ∀ (j k : Nat), sp.fromPos ≤ k → k + j ≤ sp.toPos →
      cntAlive dn (P ++ [sp]) k (k + j) = 0 := by
  intro j
  induction j with
  | zero => intro k _ _; exact cnt_ge dn _ (by omega)
  | succ j ih =>
    intro k h1 h2
    have hin : inRangeB sp k = true := by
      simp only [inRangeB]
      have ha : sp.fromPos ≤ k := h1
      have hb : k < sp.toPos := by omega
      simp [ha, hb]
    rw [cnt_lt dn _ (by omega), aliveL_append_del hsp, hin]
    have := ih (k + 1) (by omega) (by omega)
    rw [show k + 1 + j = k + (j + 1) from by omega] at this
    simp [this]

theorem cnt_del_outside' {dn : String} {sp : MarkedRange} (hsp : sp.mark.name = dn)
    (P : List MarkedRange) {k x : Nat} (h : x ≤ sp.fromPos ∨ sp.toPos ≤ k) :
    cntAlive dn (P ++ [sp]) k x = cntAlive dn P k x := by
  by_cases hk : k ≤ x
  · have := cnt_del_outside hsp P (x - k) k
      (by rw [show k + (x - k) = x from by omega]; exact h)
    rw [show k + (x - k) = x from by omega] at this
    exact this
  · rw [cnt_ge dn _ (by omega), cnt_ge dn P (by omega)]

theorem cnt_del_inside' {dn : String} {sp : MarkedRange} (hsp : sp.mark.name = dn)
    (P : List MarkedRange) {k x : Nat} (h1 : sp.fromPos ≤ k) (h2 : x ≤ sp.toPos) :
    cntAlive dn (P ++ [sp]) k x = 0 := by
  by_cases hk : k ≤ x
  · have := cnt_del_inside hsp P (x - k) k h1 (by omega)
    rw [show k + (x - k) = x from by omega] at this
    exact this
  · exact cnt_ge dn _ (by omega)

/-- Appending a deletion span updates the semantic position translation
by collapsing the image of its range, exactly as the deletion's step map
does: `mapDel A B ∘ aliveBelow P = aliveBelow (P ++ del-span)` where
`A`/`B` are the mapped endpoints. -/
theorem aliveBelow_append_del {dn : String} {sp : MarkedRange} (hsp : sp.mark.name = dn)
    (hft : sp.fromPos ≤ sp.toPos) (P : List MarkedRange) (x : Nat) :
    aliveBelow dn (P ++ [sp]) x
      = mapDel (aliveBelow dn P sp.fromPos) (aliveBelow dn P sp.toPos)
          (aliveBelow dn P x) := by
  have hAB : aliveBelow dn P sp.fromPos ≤ aliveBelow dn P sp.toPos :=
    cnt_mono dn P (Nat.zero_le _) hft
  rcases Nat.lt_or_ge x sp.fromPos with hx | hx
  · -- x below the span: translation unchanged
    have h1 : aliveBelow dn (P ++ [sp]) x = aliveBelow dn P x :=
      cnt_del_outside' hsp P (Or.inl (by omega))
    have h2 : aliveBelow dn P x ≤ aliveBelow dn P sp.fromPos :=
      cnt_mono dn P (Nat.zero_le _) (by omega)
    rw [h1, mapDel]
    split_ifs <;> omega
  · have hsplitf : ∀ (Q : List MarkedRange) (z : Nat), sp.fromPos ≤ z →
        cntAlive dn Q 0 z = cntAlive dn Q 0 sp.fromPos + cntAlive dn Q sp.fromPos z := by
      intro Q z hz
      have := cnt_split dn Q sp.fromPos 0 z (by omega)
      simpa using this
    have hA : cntAlive dn (P ++ [sp]) 0 sp.fromPos = cntAlive dn P 0 sp.fromPos :=
      cnt_del_outside' hsp P (Or.inl (by omega))
    rcases Nat.le_total x sp.toPos with hx2 | hx2
    · -- x inside the span: the translation collapses to the mapped start
      have h1 : aliveBelow dn (P ++ [sp]) x
          = cntAlive dn P 0 sp.fromPos := by
        rw [aliveBelow, hsplitf (P ++ [sp]) x hx, hA,
          cnt_del_inside' hsp P (Nat.le_refl _) hx2]
        omega
      have h2 : aliveBelow dn P sp.fromPos ≤ aliveBelow dn P x :=
        cnt_mono dn P (Nat.zero_le _) hx
      have h3 : aliveBelow dn P x ≤ aliveBelow dn P sp.toPos :=
        cnt_mono dn P (Nat.zero_le _) hx2
      rw [h1, mapDel]
      unfold aliveBelow at *
      split_ifs <;> omega
    · -- x above the span
      have hsplitt : ∀ (Q : List MarkedRange),
          cntAlive dn Q 0 x = cntAlive dn Q 0 sp.toPos + cntAlive dn Q sp.toPos x := by
        intro Q
        have := cnt_split dn Q sp.toPos 0 x (by omega)
        simpa using this
      have h1 : cntAlive dn (P ++ [sp]) 0 sp.toPos = cntAlive dn P 0 sp.fromPos := by
        rw [hsplitf (P ++ [sp]) sp.toPos hft, hA,
          cnt_del_inside' hsp P (Nat.le_refl _) (Nat.le_refl _)]
        omega
      have h2 : cntAlive dn (P ++ [sp]) sp.toPos x = cntAlive dn P sp.toPos x :=
        cnt_del_outside' hsp P (Or.inr (Nat.le_refl _))
      have h3 := hsplitt (P ++ [sp])
      have h4 := hsplitt P
      rw [aliveBelow, h3, h1, h2, mapDel]
      unfold aliveBelow at *
      split_ifs <;> omega

/-- Appending a kept-kind span does not change which positions survive. -/
theorem aliveL_keep_eq {dn : String} {sp : MarkedRange} (hsp : sp.mark.name ≠ dn)
    (P : List MarkedRange) (x : Nat) :
    aliveBelow dn (P ++ [sp]) x = aliveBelow dn P x :=
  cnt_congr' (fun p => aliveL_append_keep hsp P p)

theorem inRangeB_false_lo {sp : MarkedRange} {k : Nat} (h : k < sp.fromPos) :
    inRangeB sp k = false := by
  have : ¬ sp.fromPos ≤ k := by omega
  simp [inRangeB, this]

theorem inRangeB_false_hi {sp : MarkedRange} {k : Nat} (h : sp.toPos ≤ k) :
    inRangeB sp k = false := by
  have : ¬ k < sp.toPos := by omega
  simp [inRangeB, this]

theorem inRangeB_true {sp : MarkedRange} {k : Nat} (h1 : sp.fromPos ≤ k) (h2 : k < sp.toPos) :
    inRangeB sp k = true := by
  simp [inRangeB, h1, h2]

/-- Deleting the mapped range of a deletion-kind span from the modelled
character list yields the model with the span appended. -/
theorem model_delete (dn : String) {sp : MarkedRange} (hsp : sp.mark.name = dn)
    (hft : sp.fromPos ≤ sp.toPos) (P : List MarkedRange) :
    ∀ (L : List CharM) (k : Nat),
      (modelGo dn P k L).take (cntAlive dn P k sp.fromPos)
        ++ (modelGo dn P k L).drop (cntAlive dn P k sp.toPos)
      = modelGo dn (P ++ [sp]) k L := by
  intro L
  induction L with
  | nil => intro k; simp [modelGo]
  | cons c L ih =>
    intro k
    by_cases hal : aliveL dn P k = true
    · rcases Nat.lt_or_ge k sp.fromPos with hk | hk
      · -- position k is below the span
        have hkt : k < sp.toPos := by omega
        have hin : inRangeB sp k = false := inRangeB_false_lo hk
        have e1 : cntAlive dn P k sp.fromPos = cntAlive dn P (k + 1) sp.fromPos + 1 := by
          rw [cnt_lt dn P hk, hal, if_pos rfl]; omega
        have e2 : cntAlive dn P k sp.toPos = cntAlive dn P (k + 1) sp.toPos + 1 := by
          rw [cnt_lt dn P hkt, hal, if_pos rfl]; omega
        have hal' : aliveL dn (P ++ [sp]) k = true := by
          rw [aliveL_append_del hsp, hal, hin]; rfl
        simp only [modelGo, hal, hal', if_pos, e1, e2, List.singleton_append, List.nil_append,
          List.take_succ_cons, List.drop_succ_cons, List.cons_append]
        rw [stripC_append_del hsp, ih (k + 1)]
      · rcases Nat.lt_or_ge k sp.toPos with hk2 | hk2
        · -- position k is inside the span: it is deleted
          have hin : inRangeB sp k = true := inRangeB_true hk hk2
          have e1 : cntAlive dn P k sp.fromPos = 0 := cnt_ge dn P (by omega)
          have e2 : cntAlive dn P k sp.toPos = cntAlive dn P (k + 1) sp.toPos + 1 := by
            rw [cnt_lt dn P hk2, hal, if_pos rfl]; omega
          have e1' : cntAlive dn P (k + 1) sp.fromPos = 0 := cnt_ge dn P (by omega)
          have hal' : aliveL dn (P ++ [sp]) k = false := by
            rw [aliveL_append_del hsp, hin]; simp
          simp only [modelGo, hal, hal', if_pos, if_neg, Bool.false_eq_true,
            not_false_iff, List.singleton_append, List.nil_append, e1, e2, List.take_zero,
            List.drop_succ_cons, List.nil_append]
          rw [← ih (k + 1), e1', List.take_zero, List.nil_append]
        · -- position k is above the span
          have hin : inRangeB sp k = false := inRangeB_false_hi hk2
          have e1 : cntAlive dn P k sp.fromPos = 0 := cnt_ge dn P (by omega)
          have e2 : cntAlive dn P k sp.toPos = 0 := cnt_ge dn P (by omega)
          have e1' : cntAlive dn P (k + 1) sp.fromPos = 0 := cnt_ge dn P (by omega)
          have e2' : cntAlive dn P (k + 1) sp.toPos = 0 := cnt_ge dn P (by omega)
          have hal' : aliveL dn (P ++ [sp]) k = true := by
            rw [aliveL_append_del hsp, hal, hin]; rfl
          simp only [modelGo, hal, hal', if_pos, List.singleton_append, List.nil_append, e1, e2,
            List.take_zero, List.drop_zero, List.nil_append]
          rw [stripC_append_del hsp, ← ih (k + 1), e1', e2', List.take_zero,
            List.drop_zero, List.nil_append]
    · -- position k was already deleted by an earlier span
      have hal0 : aliveL dn P k = false := by
        cases h : aliveL dn P k
        · rfl
        · exact absurd h hal
      have hal' : aliveL dn (P ++ [sp]) k = false := by
        rw [aliveL_append_del hsp, hal0]; rfl
      have e1 := cnt_of_dead dn P sp.fromPos hal0
      have e2 := cnt_of_dead dn P sp.toPos hal0
      simp only [modelGo, hal0, hal', Bool.false_eq_true, if_neg, not_false_iff,
        List.nil_append, e1, e2]
      exact ih (k + 1)

/-- Removing a mark name over the mapped range of a kept-kind span from
the modelled character list yields the model with the span appended. -/
theorem model_strip (dn : String) {sp : MarkedRange} (hsp : sp.mark.name ≠ dn)
    (hft : sp.fromPos ≤ sp.toPos) (P : List MarkedRange) :
    ∀ (L : List CharM) (k : Nat),
      (modelGo dn P k L).take (cntAlive dn P k sp.fromPos)
        ++ (((modelGo dn P k L).take (cntAlive dn P k sp.toPos)).drop
              (cntAlive dn P k sp.fromPos)).map (strip1 sp.mark.name)
        ++ (modelGo dn P k L).drop (cntAlive dn P k sp.toPos)
      = modelGo dn (P ++ [sp]) k L := by
  intro L
  induction L with
  | nil => intro k; simp [modelGo]
  | cons c L ih =>
    intro k
    have halkeep : aliveL dn (P ++ [sp]) k = aliveL dn P k := aliveL_append_keep hsp P k
    by_cases hal : aliveL dn P k = true
    · rcases Nat.lt_or_ge k sp.fromPos with hk | hk
      · -- position k is below the span: char kept untouched
        have hkt : k < sp.toPos := by omega
        have hin : inRangeB sp k = false := inRangeB_false_lo hk
        have e1 : cntAlive dn P k sp.fromPos = cntAlive dn P (k + 1) sp.fromPos + 1 := by
          rw [cnt_lt dn P hk, hal, if_pos rfl]; omega
        have e2 : cntAlive dn P k sp.toPos = cntAlive dn P (k + 1) sp.toPos + 1 := by
          rw [cnt_lt dn P hkt, hal, if_pos rfl]; omega
        simp only [modelGo, hal, halkeep, if_pos, List.singleton_append, List.nil_append, e1, e2,
          List.take_succ_cons, List.drop_succ_cons, List.cons_append]
        rw [stripC_append_keep_out hsp P k hin, ih (k + 1)]
      · rcases Nat.lt_or_ge k sp.toPos with hk2 | hk2
        · -- position k is inside the span: the mark name is stripped
          have hin : inRangeB sp k = true := inRangeB_true hk hk2
          have e1 : cntAlive dn P k sp.fromPos = 0 := cnt_ge dn P (by omega)
          have e2 : cntAlive dn P k sp.toPos = cntAlive dn P (k + 1) sp.toPos + 1 := by
            rw [cnt_lt dn P hk2, hal, if_pos rfl]; omega
          have e1' : cntAlive dn P (k + 1) sp.fromPos = 0 := cnt_ge dn P (by omega)
          simp only [modelGo, hal, halkeep, if_pos, List.singleton_append, List.nil_append, e1, e2,
            List.take_zero, List.take_succ_cons, List.drop_zero, List.drop_succ_cons,
            List.nil_append, List.map_cons, List.cons_append]
          rw [stripC_append_keep_in hsp P k hin, ← ih (k + 1), e1', List.take_zero,
            List.drop_zero, List.nil_append]
        · -- position k is above the span
          have hin : inRangeB sp k = false := inRangeB_false_hi hk2
          have e1 : cntAlive dn P k sp.fromPos = 0 := cnt_ge dn P (by omega)
          have e2 : cntAlive dn P k sp.toPos = 0 := cnt_ge dn P (by omega)
          have e1' : cntAlive dn P (k + 1) sp.fromPos = 0 := cnt_ge dn P (by omega)
          have e2' : cntAlive dn P (k + 1) sp.toPos = 0 := cnt_ge dn P (by omega)
          simp only [modelGo, hal, halkeep, if_pos, List.singleton_append, List.nil_append, e1, e2,
            List.take_zero, List.drop_zero, List.map_nil, List.nil_append]
          rw [stripC_append_keep_out hsp P k hin, ← ih (k + 1), e1', e2',
            List.take_zero, List.drop_zero, List.map_nil, List.nil_append]
          simp
    · -- position k was already deleted by an earlier span
      have hal0 : aliveL dn P k = false := by
        cases h : aliveL dn P k
        · rfl
        · exact absurd h hal
      have e1 := cnt_of_dead dn P sp.fromPos hal0
      have e2 := cnt_of_dead dn P sp.toPos hal0
      simp only [modelGo, hal0, halkeep, Bool.false_eq_true, if_neg, not_false_iff,
        List.nil_append, e1, e2]
      exact ih (k + 1)

/-! ### The resolver's transaction mapping -/

theorem mapMaps_append_one (ms : List StepMap) (m : StepMap) (x : Nat) :
    mapMaps (ms ++ [m]) x = stepMapApply m (mapMaps ms x) := by
  simp [mapMaps, List.foldl_append]

/-- The step map of a deletion maps positions exactly as `mapDel`. -/
theorem stepMapApply_del {A B : Nat} (h : A ≤ B) (y : Nat) :
    stepMapApply (delStepMap A B) y = mapDel A B y := by
  by_cases h1 : y < A
  · have hc : (y : Int) < (A : Int) := by exact_mod_cast h1
    simp [stepMapApply, delStepMap, smapGo, hc, mapDel, h1]
  · by_cases h2 : y ≤ B
    · have hc : ¬ ((y : Int) < (A : Int)) := by
        simp only [not_lt] at h1 ⊢
        exact_mod_cast h1
      have hc2 : (y : Int) ≤ (A : Int) + ((B - A : Nat) : Int) := by
        have : ((B - A : Nat) : Int) = (B : Int) - (A : Int) := by omega
        rw [this]
        omega
      have hLHS : stepMapApply (delStepMap A B) y = A := by
        simp only [stepMapApply, delStepMap, smapGo, if_neg hc, if_pos hc2]
        by_cases hz : (B - A ≠ 0 && (y : Int) == (A : Int)) = true
        · rw [if_pos hz]
          simp
        · rw [if_neg hz]
          simp
      rw [hLHS, mapDel]
      split_ifs <;> omega
    · have hc : ¬ ((y : Int) < (A : Int)) := by
        simp only [not_lt] at h1 ⊢
        exact_mod_cast h1
      have hc2 : ¬ ((y : Int) ≤ (A : Int) + ((B - A : Nat) : Int)) := by
        have : ((B - A : Nat) : Int) = (B : Int) - (A : Int) := by omega
        rw [this]
        omega
      have hLHS : stepMapApply (delStepMap A B) y = y - (B - A) := by
        simp only [stepMapApply, delStepMap, smapGo, if_neg hc, if_neg hc2]
        omega
      rw [hLHS, mapDel]
      split_ifs <;> omega

/-- Main invariant of the resolver's fold: starting from a state whose
document realizes the model of the processed spans `P` and whose mapping
is the semantic position translation for `P`, folding the remaining
spans `S` yields the model of `P ++ S`, the translation for `P ++ S`,
and appends exactly the translated operations. -/
theorem resolveFold_spec (dn : String) (L : List CharM) :
    ∀ (S P : List MarkedRange) (st : ResolveState),
      (∀ sp ∈ S, sp.fromPos ≤ sp.toPos) →
      chars st.doc = modelGo dn P 0 L →
      (∀ x, mapMaps st.maps x = aliveBelow dn P x) →
      chars (S.foldl (resolveSpan dn) st).doc = modelGo dn (P ++ S) 0 L
      ∧ (∀ x, mapMaps (S.foldl (resolveSpan dn) st).maps x = aliveBelow dn (P ++ S) x)
      ∧ (S.foldl (resolveSpan dn) st).ops = st.ops ++ specOps dn P S := by
  intro S
  induction S with
  | nil =>
    intro P st _ hdoc hmap
    refine ⟨by simpa using hdoc, ?_, by simp [specOps]⟩
    intro x
    simpa using hmap x
  | cons sp S ih =>
    intro P st hft hdoc hmap
    have hft1 : sp.fromPos ≤ sp.toPos := hft sp (List.mem_cons_self sp S)
    have hftS : ∀ x ∈ S, x.fromPos ≤ x.toPos := fun x hx => hft x (List.mem_cons_of_mem sp hx)
    have hA : mapMaps st.maps sp.fromPos = aliveBelow dn P sp.fromPos := hmap sp.fromPos
    have hB : mapMaps st.maps sp.toPos = aliveBelow dn P sp.toPos := hmap sp.toPos
    have hAB : aliveBelow dn P sp.fromPos ≤ aliveBelow dn P sp.toPos :=
      cnt_mono dn P (Nat.zero_le _) hft1
    rw [List.foldl_cons]
    have hassoc : P ++ sp :: S = (P ++ [sp]) ++ S := by simp
    rw [hassoc]
    by_cases hdel : sp.mark.name = dn
    · -- deletion-kind span: the range is deleted and a map appended
      have hbeq : (sp.mark.name == dn) = true := by simp [hdel]
      have hstep : resolveSpan dn st sp
          = ⟨deleteN (aliveBelow dn P sp.fromPos) (aliveBelow dn P sp.toPos) st.doc,
             st.maps ++ [delStepMap (aliveBelow dn P sp.fromPos) (aliveBelow dn P sp.toPos)],
             st.ops ++ [.delete (aliveBelow dn P sp.fromPos) (aliveBelow dn P sp.toPos)]⟩ := by
        simp [resolveSpan, hbeq, hA, hB]
      rw [hstep]
      have hdoc' : chars (deleteN (aliveBelow dn P sp.fromPos) (aliveBelow dn P sp.toPos)
          st.doc) = modelGo dn (P ++ [sp]) 0 L := by
        rw [chars_deleteN, hdoc]
        exact model_delete dn hdel hft1 P L 0
      have hmap' : ∀ x, mapMaps (st.maps
            ++ [delStepMap (aliveBelow dn P sp.fromPos) (aliveBelow dn P sp.toPos)]) x
          = aliveBelow dn (P ++ [sp]) x := by
        intro x
        rw [mapMaps_append_one, hmap x, stepMapApply_del hAB,
          aliveBelow_append_del hdel hft1 P x]
      have := ih (P ++ [sp])
        ⟨deleteN (aliveBelow dn P sp.fromPos) (aliveBelow dn P sp.toPos) st.doc,
         st.maps ++ [delStepMap (aliveBelow dn P sp.fromPos) (aliveBelow dn P sp.toPos)],
         st.ops ++ [.delete (aliveBelow dn P sp.fromPos) (aliveBelow dn P sp.toPos)]⟩
        hftS hdoc' hmap'
      refine ⟨this.1, this.2.1, ?_⟩
      rw [this.2.2]
      simp [specOps, specOp, hbeq]
    · -- kept-kind span: only the mark is removed
      have hbeq : (sp.mark.name == dn) = false := by simp [hdel]
      have hstep : resolveSpan dn st sp
          = ⟨removeMarkN (aliveBelow dn P sp.fromPos) (aliveBelow dn P sp.toPos)
               sp.mark.name st.doc,
             st.maps,
             st.ops ++ [.removeMarkOp (aliveBelow dn P sp.fromPos)
               (aliveBelow dn P sp.toPos) sp.mark.name]⟩ := by
        simp [resolveSpan, hbeq, hA, hB]
      rw [hstep]
      have hdoc' : chars (removeMarkN (aliveBelow dn P sp.fromPos)
            (aliveBelow dn P sp.toPos) sp.mark.name st.doc)
          = modelGo dn (P ++ [sp]) 0 L := by
        rw [chars_removeMarkN, hdoc]
        exact model_strip dn hdel hft1 P L 0
      have hmap' : ∀ x, mapMaps st.maps x = aliveBelow dn (P ++ [sp]) x := by
        intro x
        rw [hmap x, aliveL_keep_eq hdel P x]
      have := ih (P ++ [sp])
        ⟨removeMarkN (aliveBelow dn P sp.fromPos) (aliveBelow dn P sp.toPos)
           sp.mark.name st.doc,
         st.maps,
         st.ops ++ [.removeMarkOp (aliveBelow dn P sp.fromPos)
           (aliveBelow dn P sp.toPos) sp.mark.name]⟩
        hftS hdoc' hmap'
      refine ⟨this.1, this.2.1, ?_⟩
      rw [this.2.2]
      simp [specOps, specOp, hbeq]

/-! ### Characterization of the span locator's accumulator -/

theorem mmFold_append (r : Option (Nat × Nat)) (os1 os2 : List (Nat × Nat)) :
    mmFold r (os1 ++ os2) = mmFold (mmFold r os1) os2 := by
  simp [mmFold, List.foldl_append]

theorem lookupR_map_upd (mk : Mark) (pos endPos : Nat) :
    ∀ (acc : List (Mark × Nat × Nat)) (mk' : Mark),
      lookupR (acc.map (fun e =>
          if e.1 = mk then (mk, min e.2.1 pos, max e.2.2 endPos) else e)) mk'
        = if mk' = mk then (lookupR acc mk).map (fun r => (min r.1 pos, max r.2 endPos))
          else lookupR acc mk' := by
  intro acc
  induction acc with
  | nil => intro mk'; by_cases h : mk' = mk <;> simp [lookupR, h]
  | cons e rest ih =>
    intro mk'
    rw [List.map_cons]
    by_cases he : e.1 = mk
    · rw [if_pos he]
      by_cases hm : mk' = mk
      · subst hm
        simp [lookupR, he]
      · have hne : ¬ (mk = mk') := fun h => hm h.symm
        have hne2 : ¬ (e.1 = mk') := by rw [he]; exact hne
        rw [lookupR, if_neg hne, ih mk', if_neg hm, if_neg hm, lookupR, if_neg hne2]
    · rw [if_neg he]
      by_cases hm2 : e.1 = mk'
      · have hne : ¬ (mk' = mk) := by
          intro h
          exact he (by rw [hm2, h])
        rw [lookupR, if_pos hm2, if_neg hne, lookupR, if_pos hm2]
      · rw [lookupR, if_neg hm2, ih mk']
        by_cases hm : mk' = mk
        · rw [if_pos hm, if_pos hm]
          have : lookupR (e :: rest) mk = lookupR rest mk := by
            rw [lookupR, if_neg he]
          rw [this]
        · rw [if_neg hm, if_neg hm, lookupR, if_neg hm2]

theorem any_eq_lookup_isSome (acc : List (Mark × Nat × Nat)) (mk : Mark) :
    (acc.any (fun e => e.1 = mk)) = (lookupR acc mk).isSome := by
  induction acc with
  | nil => simp [lookupR]
  | cons e rest ih =>
    by_cases he : e.1 = mk
    · simp [lookupR, he]
    · rw [List.any_cons, lookupR, if_neg he, ← ih]
      simp [he]

theorem lookupR_append_new (acc : List (Mark × Nat × Nat)) (mk : Mark) (pos endPos : Nat)
    (h : lookupR acc mk = none) :
    lookupR (acc ++ [(mk, pos, endPos)]) mk = some (pos, endPos) := by
  induction acc with
  | nil => simp [lookupR]
  | cons e rest ih =>
    by_cases he : e.1 = mk
    · rw [lookupR, if_pos he] at h
      exact absurd h (by simp)
    · rw [lookupR, if_neg he] at h
      rw [List.cons_append, lookupR, if_neg he]
      exact ih h

theorem lookupR_append_other (acc : List (Mark × Nat × Nat)) (mk mk' : Mark)
    (pos endPos : Nat) (h : ¬ mk' = mk) :
    lookupR (acc ++ [(mk, pos, endPos)]) mk' = lookupR acc mk' := by
  induction acc with
  | nil =>
    have hne : ¬ (mk = mk') := fun hh => h hh.symm
    simp [lookupR, hne]
  | cons e rest ih =>
    by_cases he : e.1 = mk'
    · rw [List.cons_append, lookupR, if_pos he, lookupR, if_pos he]
    · rw [List.cons_append, lookupR, if_neg he, lookupR, if_neg he]
      exact ih

theorem lookupR_updateRange_same (acc : List (Mark × Nat × Nat)) (mk : Mark)
    (pos endPos : Nat) :
    lookupR (updateRange acc mk pos endPos) mk = mmStep (lookupR acc mk) (pos, endPos) := by
  rw [updateRange]
  by_cases hany : (acc.any (fun e => e.1 = mk)) = true
  · rw [if_pos hany]
    rw [lookupR_map_upd mk pos endPos acc mk, if_pos rfl]
    rw [any_eq_lookup_isSome] at hany
    rcases ho : lookupR acc mk with _ | r
    · rw [ho] at hany; simp at hany
    · simp [mmStep]
  · rw [if_neg hany]
    rw [any_eq_lookup_isSome] at hany
    have hnone : lookupR acc mk = none := by
      rcases ho : lookupR acc mk with _ | r
      · rfl
      · rw [ho] at hany; simp at hany
    rw [lookupR_append_new acc mk pos endPos hnone, hnone]
    rfl

theorem lookupR_updateRange_other (acc : List (Mark × Nat × Nat)) (mk mk' : Mark)
    (pos endPos : Nat) (h : ¬ mk' = mk) :
    lookupR (updateRange acc mk pos endPos) mk' = lookupR acc mk' := by
  rw [updateRange]
  by_cases hany : (acc.any (fun e => e.1 = mk)) = true
  · rw [if_pos hany, lookupR_map_upd mk pos endPos acc mk', if_neg h]
  · rw [if_neg hany, lookupR_append_other acc mk mk' pos endPos h]

/-- Effect of one visited node on the accumulated range of `mk`. -/
theorem lookupR_accumNode (pos endPos : Nat) (mk : Mark) :
    ∀ (marks : List Mark) (acc : List (Mark × Nat × Nat)),
      lookupR (accumNode pos endPos acc marks) mk
        = mmFold (lookupR acc mk) (occsOfMarks mk marks pos endPos) := by
  intro marks
  induction marks with
  | nil => intro acc; simp [accumNode, occsOfMarks, mmFold]
  | cons m rest ih =>
    intro acc
    by_cases hs : isSuggestionName m.name = true
    · by_cases hm : m = mk
      · have hocc : occsOfMarks mk (m :: rest) pos endPos
            = (pos, endPos) :: occsOfMarks mk rest pos endPos := by
          unfold occsOfMarks
          have hcond : m = mk ∧ isSuggestionName m.name = true := ⟨hm, hs⟩
          apply List.filterMap_cons_some
          exact if_pos hcond
        rw [hocc]
        have hstep : accumNode pos endPos acc (m :: rest)
            = accumNode pos endPos (updateRange acc m pos endPos) rest := by
          simp [accumNode, hs]
        rw [hstep, ih, hm, lookupR_updateRange_same]
        rfl
      · have hocc : occsOfMarks mk (m :: rest) pos endPos
            = occsOfMarks mk rest pos endPos := by
          simp [occsOfMarks, hm]
        have hstep : accumNode pos endPos acc (m :: rest)
            = accumNode pos endPos (updateRange acc m pos endPos) rest := by
          simp [accumNode, hs]
        rw [hocc, hstep, ih, lookupR_updateRange_other acc m mk pos endPos (fun hh => hm hh.symm)]
    · have hocc : occsOfMarks mk (m :: rest) pos endPos
          = occsOfMarks mk rest pos endPos := by
        simp only [occsOfMarks, List.filterMap_cons]
        have : ¬ (m = mk ∧ isSuggestionName m.name) := by
          rintro ⟨_, h2⟩
          exact hs h2
        rw [if_neg this]
      have hstep : accumNode pos endPos acc (m :: rest)
          = accumNode pos endPos acc rest := by
        simp only [accumNode, List.foldl_cons]
        rw [if_neg hs]
      rw [hocc, hstep, ih]

/-- Effect of the full visit walk on the accumulated range of `mk`. -/
theorem lookupR_accumAll (mk : Mark) :
    ∀ (visits : List (Node × Nat)) (acc : List (Mark × Nat × Nat)),
      lookupR (accumAll acc visits) mk
        = mmFold (lookupR acc mk) (occsOf mk visits) := by
  intro visits
  induction visits with
  | nil => intro acc; simp [accumAll, occsOf, mmFold]
  | cons v rest ih =>
    intro acc
    have hstep : accumAll acc (v :: rest)
        = accumAll (accumNode v.2 (v.2 + v.1.size) acc v.1.marks) rest := by
      simp [accumAll]
    have hocc : occsOf mk (v :: rest)
        = occsOfMarks mk v.1.marks v.2 (v.2 + v.1.size) ++ occsOf mk rest := by
      simp [occsOf]
    rw [hstep, ih, hocc, mmFold_append, lookupR_accumNode]

/-! ### Key uniqueness and membership of the accumulator -/

theorem keysOf_updateRange (acc : List (Mark × Nat × Nat)) (mk : Mark) (pos endPos : Nat) :
    keysOf (updateRange acc mk pos endPos) = keysOf acc
      ∨ keysOf (updateRange acc mk pos endPos) = keysOf acc ++ [mk] := by
  rw [updateRange]
  by_cases hany : (acc.any (fun e => e.1 = mk)) = true
  · rw [if_pos hany]
    left
    unfold keysOf
    rw [List.map_map]
    apply List.map_congr_left
    intro e _
    by_cases he : e.1 = mk
    · simp [he]
    · simp [he]
  · rw [if_neg hany]
    right
    simp [keysOf]

theorem nodup_keys_updateRange (acc : List (Mark × Nat × Nat)) (mk : Mark)
    (pos endPos : Nat) (h : (keysOf acc).Nodup) :
    (keysOf (updateRange acc mk pos endPos)).Nodup := by
  rcases keysOf_updateRange acc mk pos endPos with he | he
  · rw [he]; exact h
  · rw [he]
    rw [updateRange] at he
    by_cases hany : (acc.any (fun e => e.1 = mk)) = true
    · rw [if_pos hany] at he
      exfalso
      have hlen := congrArg List.length he
      simp [keysOf] at hlen
    · rw [if_neg hany] at he
      have hmem : mk ∉ keysOf acc := by
        intro hmk
        apply hany
        rw [List.any_eq_true]
        rcases List.mem_map.mp hmk with ⟨e, hmem, heq⟩
        exact ⟨e, hmem, by simp [heq]⟩
      rw [List.nodup_append]
      refine ⟨h, List.nodup_singleton mk, ?_⟩
      intro a ha hb
      rw [List.mem_singleton] at hb
      exact hmem (hb ▸ ha)

theorem nodup_keys_accumNode (pos endPos : Nat) :
    ∀ (marks : List Mark) (acc : List (Mark × Nat × Nat)),
      (keysOf acc).Nodup → (keysOf (accumNode pos endPos acc marks)).Nodup := by
  intro marks
  induction marks with
  | nil => intro acc h; exact h
  | cons m rest ih =>
    intro acc h
    rw [accumNode, List.foldl_cons]
    by_cases hs : isSuggestionName m.name = true
    · rw [if_pos hs]
      exact ih (updateRange acc m pos endPos) (nodup_keys_updateRange acc m pos endPos h)
    · rw [if_neg hs]
      exact ih acc h

theorem nodup_keys_accumAll :
    ∀ (visits : List (Node × Nat)) (acc : List (Mark × Nat × Nat)),
      (keysOf acc).Nodup → (keysOf (accumAll acc visits)).Nodup := by
  intro visits
  induction visits with
  | nil => intro acc h; exact h
  | cons v rest ih =>
    intro acc h
    rw [accumAll, List.foldl_cons]
    exact ih _ (nodup_keys_accumNode v.2 (v.2 + v.1.size) v.1.marks acc h)

theorem mem_of_lookupR_some :
    ∀ (acc : List (Mark × Nat × Nat)) (mk : Mark) (r : Nat × Nat),
      lookupR acc mk = some r → (mk, r.1, r.2) ∈ acc := by
  intro acc
  induction acc with
  | nil => intro mk r h; exact absurd h (by simp [lookupR])
  | cons e rest ih =>
    intro mk r h
    rw [lookupR] at h
    by_cases he : e.1 = mk
    · rw [if_pos he] at h
      have : e = (mk, r.1, r.2) := by
        rcases e with ⟨e1, e2⟩
        simp at he
        simp at h
        simp [he, ← h]
      rw [← this]
      exact List.mem_cons_self e rest
    · rw [if_neg he] at h
      exact List.mem_cons_of_mem e (ih mk r h)

theorem lookupR_of_mem_nodup :
    ∀ (acc : List (Mark × Nat × Nat)), (keysOf acc).Nodup →
      ∀ e ∈ acc, lookupR acc e.1 = some e.2 := by
  intro acc
  induction acc with
  | nil => intro _ e he; exact absurd he (by simp)
  | cons x rest ih =>
    intro hnd e he
    have hnd' : (keysOf rest).Nodup := by
      simp only [keysOf, List.map_cons, List.nodup_cons] at hnd
      exact hnd.2
    rcases List.mem_cons.mp he with he1 | he1
    · rw [he1, lookupR, if_pos rfl]
    · rw [lookupR]
      by_cases hx : x.1 = e.1
      · exfalso
        simp only [keysOf, List.map_cons, List.nodup_cons] at hnd
        exact hnd.1 (hx ▸ List.mem_map_of_mem Prod.fst he1)
      · rw [if_neg hx]
        exact ih hnd' e he1

/-! ### Bounds of the running min/max -/

theorem mmFold_spec : ∀ (os : List (Nat × Nat)) (r0 : Nat × Nat),
    ∃ r, mmFold (some r0) os = some r ∧ r.1 ≤ r0.1 ∧ r0.2 ≤ r.2
      ∧ (∀ o ∈ os, r.1 ≤ o.1 ∧ o.2 ≤ r.2)
      ∧ ((r0.1 ≤ r0.2 ∧ ∀ o ∈ os, o.1 ≤ o.2) → r.1 ≤ r.2) := by
  intro os
  induction os with
  | nil =>
    intro r0
    exact ⟨r0, rfl, Nat.le_refl _, Nat.le_refl _, by simp, fun h => h.1⟩
  | cons o os ih =>
    intro r0
    have hstep : mmFold (some r0) (o :: os)
        = mmFold (some (min r0.1 o.1, max r0.2 o.2)) os := rfl
    rcases ih (min r0.1 o.1, max r0.2 o.2) with ⟨r, hr, h1, h2, h3, h4⟩
    refine ⟨r, by rw [hstep, hr], by simp at h1 ⊢; omega, by simp at h2 ⊢; omega, ?_, ?_⟩
    · intro o' ho'
      rcases List.mem_cons.mp ho' with h | h
      · subst h
        constructor
        · simp at h1; omega
        · simp at h2; omega
      · exact h3 o' h
    · rintro ⟨ha, hb⟩
      apply h4
      constructor
      · have hoo := hb o (List.mem_cons_self o os)
        simp
        omega
      · exact fun o' ho' => hb o' (List.mem_cons_of_mem o ho')

theorem mmFold_none_nil : mmFold none [] = none := rfl

theorem mmFold_none_spec (os : List (Nat × Nat)) (h : os ≠ []) :
    ∃ r, mmFold none os = some r ∧ (∀ o ∈ os, r.1 ≤ o.1 ∧ o.2 ≤ r.2)
      ∧ ((∀ o ∈ os, o.1 ≤ o.2) → r.1 ≤ r.2) := by
  rcases os with _ | ⟨o, os⟩
  · exact absurd rfl h
  · have hstep : mmFold none (o :: os) = mmFold (some o) os := rfl
    rcases mmFold_spec os o with ⟨r, hr, h1, h2, h3, h4⟩
    refine ⟨r, by rw [hstep, hr], ?_, ?_⟩
    · intro o' ho'
      rcases List.mem_cons.mp ho' with hh | hh
      · exact hh ▸ ⟨h1, h2⟩
      · exact h3 o' hh
    · intro hb
      exact h4 ⟨hb o (List.mem_cons_self o os), fun o' ho' => hb o' (List.mem_cons_of_mem o ho')⟩

/-! ### Derived facts about the span locator's result -/

theorem mem_find_iff_acc (d : NDoc) (a b : Nat) (e : MarkedRange) :
    e ∈ findSuggestionsInRange d a b
      ↔ (e.mark, e.fromPos, e.toPos) ∈ accumAll [] (nodesBetween d a b) := by
  unfold findSuggestionsInRange
  rw [List.mem_map]
  constructor
  · rintro ⟨⟨m, f, t⟩, hx, hmap⟩
    cases hmap
    exact hx
  · intro hx
    exact ⟨(e.mark, e.fromPos, e.toPos), hx, rfl⟩

theorem find_lookup (d : NDoc) (a b : Nat) (e : MarkedRange)
    (he : e ∈ findSuggestionsInRange d a b) :
    lookupR (accumAll [] (nodesBetween d a b)) e.mark = some (e.fromPos, e.toPos) := by
  have hnd := nodup_keys_accumAll (nodesBetween d a b) [] (by simp [keysOf])
  have hm := (mem_find_iff_acc d a b e).mp he
  have := lookupR_of_mem_nodup _ hnd _ hm
  simpa using this

theorem lookup_find (d : NDoc) (a b : Nat) (mk : Mark) (r : Nat × Nat)
    (h : lookupR (accumAll [] (nodesBetween d a b)) mk = some r) :
    (⟨mk, r.1, r.2⟩ : MarkedRange) ∈ findSuggestionsInRange d a b :=
  (mem_find_iff_acc d a b ⟨mk, r.1, r.2⟩).mpr (mem_of_lookupR_some _ mk r h)

theorem occsOf_shape (mk : Mark) (visits : List (Node × Nat)) :
    ∀ o ∈ occsOf mk visits, ∃ v ∈ visits, o = (v.2, v.2 + v.1.size) := by
  intro o ho
  rw [occsOf, List.mem_flatMap] at ho
  rcases ho with ⟨v, hv, ho⟩
  rw [occsOfMarks, List.mem_filterMap] at ho
  rcases ho with ⟨m, _, hsome⟩
  refine ⟨v, hv, ?_⟩
  by_cases hc : (m = mk ∧ isSuggestionName m.name = true)
  · rw [if_pos hc] at hsome
    exact (Option.some.inj hsome).symm
  · rw [if_neg hc] at hsome
    cases hsome

theorem occ_mem (mk : Mark) (visits : List (Node × Nat)) (v : Node × Nat) (hv : v ∈ visits)
    (hm : mk ∈ v.1.marks) (hs : isSuggestionName mk.name = true) :
    (v.2, v.2 + v.1.size) ∈ occsOf mk visits := by
  rw [occsOf, List.mem_flatMap]
  refine ⟨v, hv, ?_⟩
  rw [occsOfMarks, List.mem_filterMap]
  exact ⟨mk, hm, if_pos ⟨rfl, hs⟩⟩

theorem occs_ne_nil_inv (mk : Mark) (visits : List (Node × Nat))
    (h : occsOf mk visits ≠ []) :
    isSuggestionName mk.name = true ∧ ∃ v ∈ visits, mk ∈ v.1.marks := by
  rcases List.exists_mem_of_ne_nil _ h with ⟨o, ho⟩
  rw [occsOf, List.mem_flatMap] at ho
  rcases ho with ⟨v, hv, ho⟩
  rw [occsOfMarks, List.mem_filterMap] at ho
  rcases ho with ⟨x, hx, hsome⟩
  by_cases hc : (x = mk ∧ isSuggestionName x.name = true)
  · exact ⟨hc.1 ▸ hc.2, v, hv, hc.1 ▸ hx⟩
  · rw [if_neg hc] at hsome
    cases hsome

theorem find_value_mm (d : NDoc) (a b : Nat) (e : MarkedRange)
    (he : e ∈ findSuggestionsInRange d a b) :
    mmFold none (occsOf e.mark (nodesBetween d a b)) = some (e.fromPos, e.toPos) := by
  have hl := find_lookup d a b e he
  rw [lookupR_accumAll] at hl
  exact hl

theorem spans_from_le_to (d : NDoc) (a b : Nat) :
    ∀ e ∈ findSuggestionsInRange d a b, e.fromPos ≤ e.toPos := by
  intro e he
  have hl := find_value_mm d a b e he
  have hne : occsOf e.mark (nodesBetween d a b) ≠ [] := by
    intro h0
    rw [h0, mmFold_none_nil] at hl
    cases hl
  rcases mmFold_none_spec _ hne with ⟨r, hr, _, hb2⟩
  rw [hl] at hr
  have hre : r = (e.fromPos, e.toPos) := (Option.some.inj hr).symm
  have hall : ∀ o ∈ occsOf e.mark (nodesBetween d a b), o.1 ≤ o.2 := by
    intro o ho
    rcases occsOf_shape e.mark _ o ho with ⟨v, _, hv⟩
    rw [hv]
    omega
  have := hb2 hall
  rw [hre] at this
  exact this

theorem find_covering (d : NDoc) (a b : Nat) (v : Node × Nat)
    (hv : v ∈ nodesBetween d a b) (m : Mark) (hm : m ∈ v.1.marks)
    (hs : isSuggestionName m.name = true) :
    ∃ e ∈ findSuggestionsInRange d a b,
      e.mark = m ∧ e.fromPos ≤ v.2 ∧ v.2 + v.1.size ≤ e.toPos := by
  have hocc := occ_mem m (nodesBetween d a b) v hv hm hs
  have hne : occsOf m (nodesBetween d a b) ≠ [] := by
    intro h0
    rw [h0] at hocc
    cases hocc
  rcases mmFold_none_spec _ hne with ⟨r, hr, hb1, _⟩
  have hl : lookupR (accumAll [] (nodesBetween d a b)) m = some r := by
    rw [lookupR_accumAll]
    exact hr
  exact ⟨⟨m, r.1, r.2⟩, lookup_find d a b m r hl, rfl, (hb1 _ hocc).1, (hb1 _ hocc).2⟩

theorem find_marks_nodup (d : NDoc) (a b : Nat) :
    ((findSuggestionsInRange d a b).map MarkedRange.mark).Nodup := by
  have hnd := nodup_keys_accumAll (nodesBetween d a b) [] (by simp [keysOf])
  unfold findSuggestionsInRange
  rw [List.map_map]
  exact hnd

theorem find_mark_mem_iff (d : NDoc) (a b : Nat) (mk : Mark) :
    (∃ e ∈ findSuggestionsInRange d a b, e.mark = mk)
      ↔ (isSuggestionName mk.name = true ∧ ∃ v ∈ nodesBetween d a b, mk ∈ v.1.marks) := by
  constructor
  · rintro ⟨e, he, hmk⟩
    have hl := find_value_mm d a b e he
    rw [hmk] at hl
    have hne : occsOf mk (nodesBetween d a b) ≠ [] := by
      intro h0
      rw [h0, mmFold_none_nil] at hl
      cases hl
    exact occs_ne_nil_inv mk _ hne
  · rintro ⟨hs, v, hv, hm⟩
    rcases find_covering d a b v hv mk hm hs with ⟨e, he, hme, _, _⟩
    exact ⟨e, he, hme⟩

/-! ### Well-formed documents (no empty text nodes) -/

theorem sliceGo_WF (a b : Nat) : ∀ (d : NDoc) (pos : Nat), WFdoc (sliceGo a b pos d) := by
  intro d
  induction d with
  | nil => intro pos n hn; exact absurd hn (by simp [sliceGo])
  | cons nd rest ih =>
    intro pos n hn
    rw [show sliceGo a b pos (nd :: rest)
        = (if max a pos < min b (pos + nd.size) then
            [Node.mk ((nd.text.drop (max a pos - pos)).take (min b (pos + nd.size) - max a pos))
              nd.marks] else [])
          ++ sliceGo a b (pos + nd.size) rest from rfl] at hn
    rcases List.mem_append.mp hn with h | h
    · by_cases hguard : max a pos < min b (pos + nd.size)
      · rw [if_pos hguard, List.mem_singleton] at h
        rw [h]
        intro hnil
        have hlen := congrArg List.length hnil
        simp only [List.length_take, List.length_drop, List.length_nil] at hlen
        have hsz : nd.size = nd.text.length := rfl
        omega
      · rw [if_neg hguard] at h
        exact absurd h (by simp)
    · exact ih (pos + nd.size) n h

theorem WF_append {x y : NDoc} (hx : WFdoc x) (hy : WFdoc y) : WFdoc (x ++ y) := by
  intro n hn
  rcases List.mem_append.mp hn with h | h
  · exact hx n h
  · exact hy n h

theorem deleteN_WF (a b : Nat) (d : NDoc) : WFdoc (deleteN a b d) :=
  WF_append (sliceGo_WF 0 a d 0) (sliceGo_WF b (docSize d) d 0)

theorem stripNodes_WF (nm : String) {s : NDoc} (hs : WFdoc s) : WFdoc (stripNodes nm s) := by
  intro n hn
  rcases List.mem_map.mp hn with ⟨n0, hn0, heq⟩
  rw [← heq]
  exact hs n0 hn0

theorem addNodes_WF (m : Mark) {s : NDoc} (hs : WFdoc s) : WFdoc (addNodes m s) := by
  intro n hn
  rcases List.mem_map.mp hn with ⟨n0, hn0, heq⟩
  rw [← heq]
  exact hs n0 hn0

theorem removeMarkN_WF (a b : Nat) (nm : String) (d : NDoc) : WFdoc (removeMarkN a b nm d) :=
  WF_append (WF_append (sliceGo_WF 0 a d 0) (stripNodes_WF nm (sliceGo_WF a b d 0)))
    (sliceGo_WF b (docSize d) d 0)

theorem addMarkN_WF (a b : Nat) (m : Mark) (d : NDoc) : WFdoc (addMarkN a b m d) :=
  WF_append (WF_append (sliceGo_WF 0 a d 0) (addNodes_WF m (sliceGo_WF a b d 0)))
    (sliceGo_WF b (docSize d) d 0)

theorem resolveSpan_WF (dn : String) (st : ResolveState) (sp : MarkedRange) :
    WFdoc (resolveSpan dn st sp).doc := by
  rw [resolveSpan]
  by_cases hd : (sp.mark.name == dn) = true
  · rw [if_pos hd]
    exact deleteN_WF _ _ _
  · rw [if_neg hd]
    exact removeMarkN_WF _ _ _ _

theorem foldl_resolveSpan_WF (dn : String) :
    ∀ (S : List MarkedRange) (st : ResolveState), S ≠ [] →
      WFdoc ((S.foldl (resolveSpan dn) st).doc) := by
  intro S
  induction S with
  | nil => intro st h; exact absurd rfl h
  | cons sp S ih =>
    intro st _
    rw [List.foldl_cons]
    rcases S with _ | ⟨sp2, S2⟩
    · exact resolveSpan_WF dn st sp
    · exact ih (resolveSpan dn st sp) (by simp)

/-! ### Relating characters to the nodes that carry them -/

theorem nodesListFrom_mem_doc : ∀ (d : NDoc) (k : Nat) (v : Node × Nat),
    v ∈ nodesListFrom k d → v.1 ∈ d := by
  intro d
  induction d with
  | nil => intro k v hv; exact absurd hv (by simp [nodesListFrom])
  | cons n rest ih =>
    intro k v hv
    rw [nodesListFrom] at hv
    rcases List.mem_cons.mp hv with h | h
    · rw [h]
      exact List.mem_cons_self n rest
    · exact List.mem_cons_of_mem n (ih (k + n.size) v h)

theorem char_pos_node : ∀ (d : NDoc) (k p : Nat), p < (chars d).length →
    ∃ v ∈ nodesListFrom k d, v.2 ≤ k + p ∧ k + p < v.2 + v.1.size
      ∧ ∃ c, (chars d)[p]? = some c ∧ c.marks = v.1.marks := by
  intro d
  induction d with
  | nil =>
    intro k p hp
    exact absurd hp (by simp [chars])
  | cons n rest ih =>
    intro k p hp
    have hchars : chars (n :: rest) = n.text.map (fun c => CharM.mk c n.marks) ++ chars rest := by
      simp [chars]
    have hlen : (n.text.map (fun c => CharM.mk c n.marks)).length = n.size := by
      simp [Node.size]
    by_cases hcase : p < n.size
    · refine ⟨(n, k), by rw [nodesListFrom]; exact List.mem_cons_self _ _, by omega,
        by simp only []; omega, ?_⟩
      have hplen : p < (n.text.map (fun c => CharM.mk c n.marks)).length := by omega
      have h1 : (chars (n :: rest))[p]? = (n.text.map (fun c => CharM.mk c n.marks))[p]? := by
        rw [hchars]
        exact List.getElem?_append_left hplen
      rw [h1, List.getElem?_eq_getElem hplen]
      refine ⟨_, rfl, ?_⟩
      simp
    · have hp' : p - n.size < (chars rest).length := by
        rw [hchars, List.length_append, hlen] at hp
        omega
      rcases ih (k + n.size) (p - n.size) hp' with ⟨v, hv, h1, h2, c, hc, hm⟩
      refine ⟨v, by rw [nodesListFrom]; exact List.mem_cons_of_mem _ hv, by omega, by omega,
        c, ?_, hm⟩
      rw [hchars, List.getElem?_append_right (by omega)]
      rw [show (n.text.map (fun c => CharM.mk c n.marks)).length = n.size from hlen]
      exact hc

/-! ### Membership and lookup in the character-level model -/

theorem modelGo_mem (dn : String) (P : List MarkedRange) :
    ∀ (L : List CharM) (k : Nat) (c : CharM), c ∈ modelGo dn P k L →
      ∃ j, ∃ hj : j < L.length, aliveL dn P (k + j) = true
        ∧ c = stripC dn P (k + j) (L.get ⟨j, hj⟩) := by
  intro L
  induction L with
  | nil => intro k c hc; exact absurd hc (by simp [modelGo])
  | cons c0 L ih =>
    intro k c hc
    rw [modelGo] at hc
    rcases List.mem_append.mp hc with h | h
    · by_cases hal : aliveL dn P k = true
      · rw [if_pos hal, List.mem_singleton] at h
        exact ⟨0, by simp, by simpa using hal, by simpa using h⟩
      · rw [if_neg hal] at h
        exact absurd h (by simp)
    · rcases ih (k + 1) c h with ⟨j, hj, h1, h2⟩
      refine ⟨j + 1, by simpa using hj, ?_, ?_⟩
      · rw [show k + (j + 1) = k + 1 + j from by omega]
        exact h1
      · rw [show k + (j + 1) = k + 1 + j from by omega]
        simpa using h2

theorem modelGo_get (dn : String) (P : List MarkedRange) :
    ∀ (L : List CharM) (k j : Nat) (hj : j < L.length),
      aliveL dn P (k + j) = true →
      (modelGo dn P k L)[cntAlive dn P k (k + j)]?
        = some (stripC dn P (k + j) (L.get ⟨j, hj⟩)) := by
  intro L
  induction L with
  | nil => intro k j hj; exact absurd hj (by simp)
  | cons c0 L ih =>
    intro k j hj hal
    rcases j with _ | j
    · rw [cnt_ge dn P (by omega)]
      simp only [Nat.add_zero] at hal
      rw [modelGo, if_pos hal]
      simp
    · have hj' : j < L.length := by simpa using hj
      have hal' : aliveL dn P (k + 1 + j) = true := by
        rw [show k + 1 + j = k + (j + 1) from by omega]
        exact hal
      have := ih (k + 1) j hj' hal'
      rw [modelGo]
      by_cases hal0 : aliveL dn P k = true
      · rw [if_pos hal0, cnt_lt dn P (show k < k + (j + 1) from by omega), hal0, if_pos rfl]
        rw [List.singleton_append]
        rw [show 1 + cntAlive dn P (k + 1) (k + (j + 1))
            = cntAlive dn P (k + 1) (k + (j + 1)) + 1 from by omega]
        rw [List.getElem?_cons_succ]
        rw [show k + (j + 1) = k + 1 + j from by omega]
        exact this
      · have hal0' : aliveL dn P k = false := by
          cases h : aliveL dn P k
          · rfl
          · exact absurd h hal0
        rw [if_neg (by rw [hal0']; exact Bool.false_ne_true), List.nil_append]
        rw [cnt_of_dead dn P _ hal0']
        rw [show k + (j + 1) = k + 1 + j from by omega]
        exact this

/-! ### Documents with no pending marks produce no spans -/

theorem accumNode_no_sugg (pos endPos : Nat) :
    ∀ (marks : List Mark), (∀ m ∈ marks, isSuggestionName m.name = false) →
      ∀ acc, accumNode pos endPos acc marks = acc := by
  intro marks
  induction marks with
  | nil => intro _ acc; rfl
  | cons m rest ih =>
    intro h acc
    rw [accumNode, List.foldl_cons, if_neg (by rw [h m (List.mem_cons_self m rest)]; simp)]
    exact ih (fun x hx => h x (List.mem_cons_of_mem m hx)) acc

theorem find_empty_of_no_sugg (d : NDoc) (a b : Nat)
    (h : ∀ v ∈ nodesBetween d a b, ∀ m ∈ v.1.marks, isSuggestionName m.name = false) :
    findSuggestionsInRange d a b = [] := by
  unfold findSuggestionsInRange
  have : accumAll [] (nodesBetween d a b) = [] := by
    have hgen : ∀ (visits : List (Node × Nat)),
        (∀ v ∈ visits, ∀ m ∈ v.1.marks, isSuggestionName m.name = false) →
        ∀ acc, accumAll acc visits = acc := by
      intro visits
      induction visits with
      | nil => intro _ acc; rfl
      | cons v rest ih =>
        intro hv acc
        rw [accumAll, List.foldl_cons,
          accumNode_no_sugg v.2 (v.2 + v.1.size) v.1.marks (hv v (List.mem_cons_self v rest))]
        exact ih (fun x hx => hv x (List.mem_cons_of_mem v hx)) acc
    exact hgen _ h []
  rw [this]
  rfl

/-! ### The base model (no spans processed) -/

theorem aliveL_nil (dn : String) (p : Nat) : aliveL dn [] p = true := rfl

theorem stripC_nil (dn : String) (p : Nat) (c : CharM) : stripC dn [] p c = c := by
  rcases c with ⟨ch, marks⟩
  simp [stripC, stripL]

theorem modelGo_nil_spans (dn : String) :
    ∀ (L : List CharM) (k : Nat), modelGo dn [] k L = L := by
  intro L
  induction L with
  | nil => intro k; rfl
  | cons c L ih =>
    intro k
    rw [modelGo, if_pos (aliveL_nil dn k), stripC_nil, List.singleton_append, ih (k + 1)]

theorem cnt_nil_spans (dn : String) : ∀ (j k : Nat), cntAlive dn [] k (k + j) = j := by
  intro j
  induction j with
  | zero => intro k; exact cnt_ge dn [] (by omega)
  | succ j ih =>
    intro k
    rw [cnt_lt dn [] (by omega), aliveL_nil, if_pos rfl]
    have := ih (k + 1)
    rw [show k + 1 + j = k + (j + 1) from by omega] at this
    omega

theorem aliveBelow_nil (dn : String) (x : Nat) : aliveBelow dn [] x = x := by
  have := cnt_nil_spans dn x 0
  simpa [aliveBelow] using this

/-- Top-level characterization of a dispatched resolver call with at
least one located span: it returns `true`, appends exactly the
translated per-span operations, and its resulting document is the
character-level model of the located spans. -/
theorem resolver_run (ar : AR) (a b : Nat) (d : NDoc)
    (h : findSuggestionsInRange d a b ≠ []) :
    (processSuggestionsInRange ar a b d true).handled = true
    ∧ chars (processSuggestionsInRange ar a b d true).doc
        = modelGo (markToDeleteOf ar) (findSuggestionsInRange d a b) 0 (chars d)
    ∧ (processSuggestionsInRange ar a b d true).ops
        = specOps (markToDeleteOf ar) [] (findSuggestionsInRange d a b)
    ∧ (processSuggestionsInRange ar a b d true).doc
        = ((findSuggestionsInRange d a b).foldl
            (resolveSpan (markToDeleteOf ar)) ⟨d, [], []⟩).doc := by
  have hspec := resolveFold_spec (markToDeleteOf ar) (chars d)
    (findSuggestionsInRange d a b) [] ⟨d, [], []⟩
    (spans_from_le_to d a b)
    (by rw [modelGo_nil_spans])
    (by intro x; rw [aliveBelow_nil]; rfl)
  have hne : (findSuggestionsInRange d a b).isEmpty = false := by
    rcases he : findSuggestionsInRange d a b with _ | ⟨e, es⟩
    · exact absurd he h
    · rfl
  have hrun : processSuggestionsInRange ar a b d true
      = ⟨true,
         ((findSuggestionsInRange d a b).foldl
           (resolveSpan (markToDeleteOf ar)) ⟨d, [], []⟩).doc,
         ((findSuggestionsInRange d a b).foldl
           (resolveSpan (markToDeleteOf ar)) ⟨d, [], []⟩).ops,
         true⟩ := by
    rw [processSuggestionsInRange]
    simp [hne]
  rw [hrun]
  simp only [List.nil_append] at hspec
  exact ⟨rfl, hspec.1, hspec.2.2, rfl⟩

/-- Shared helper: a resolver call that locates no spans, or is given no
dispatch function, produces no edit and returns `false`. -/
theorem resolver_nothing (ar : AR) (a b : Nat) (d : NDoc) (dispatch : Bool)
    (h : findSuggestionsInRange d a b = [] ∨ dispatch = false) :
    processSuggestionsInRange ar a b d dispatch = ⟨false, d, [], false⟩ := by
  rw [processSuggestionsInRange]
  rcases h with h | h
  · rw [h]
    simp
  · rw [h]
    simp

/-- A node of a well-formed document contributes at least one character
wearing exactly its marks. -/
theorem node_chars_mem {d : NDoc} (n : Node) (hn : n ∈ d) (hne : n.text ≠ []) :
    ∃ c ∈ chars d, c.marks = n.marks := by
  rcases htext : n.text with _ | ⟨ch, rest⟩
  · exact absurd htext hne
  · refine ⟨⟨ch, n.marks⟩, ?_, rfl⟩
    rw [chars, List.mem_flatMap]
    refine ⟨n, hn, ?_⟩
    rw [htext]
    exact List.mem_cons_self _ _

end SuggMode

namespace SuggMode

/-- Claim C6: for every accept/reject call over a range in which the
span locator finds zero pending spans, the operation produces no edit
and reports "nothing to do" via the boolean sentinel `false`, never an
error (the command is a total function); the document state is
unchanged. -/
theorem claim_C6 (ar : AR) (a b : Nat) (d : NDoc) (dispatch : Bool)
    (h : findSuggestionsInRange d a b = []) :
    processSuggestionsInRange ar a b d dispatch
      = ⟨false, d, [], false⟩ :=
  resolver_nothing ar a b d dispatch (Or.inl h)

/-- Witness for C6 at a concrete one-node document with no pending
marks. -/
theorem claim_C6_witness :
    findSuggestionsInRange [Node.mk ['a'] []] 0 1 = []
    ∧ processSuggestionsInRange .accept 0 1 [Node.mk ['a'] []] true
        = ⟨false, [Node.mk ['a'] []], [], false⟩ :=
  ⟨rfl, claim_C6 .accept 0 1 [Node.mk ['a'] []] true rfl⟩

/-- Claim C10: for every call to `acceptSuggestionsInRange` or
`rejectSuggestionsInRange` in which no dispatch function is supplied,
the command returns `false` and performs no edit, even if the range does
contain pending suggestion spans (the span search result is
discarded).  The last two conjuncts exhibit a range that does contain a
pending span. -/
theorem claim_C10 :
    (∀ (a b : Nat) (d : NDoc),
      acceptSuggestionsInRange a b d false = ⟨false, d, [], false⟩
      ∧ rejectSuggestionsInRange a b d false = ⟨false, d, [], false⟩)
    ∧ findSuggestionsInRange
        [Node.mk ['x'] [Mark.mk 1 "suggestion_insert" "alice" []]] 0 1 ≠ []
    ∧ acceptSuggestionsInRange 0 1
        [Node.mk ['x'] [Mark.mk 1 "suggestion_insert" "alice" []]] false
      = ⟨false, [Node.mk ['x'] [Mark.mk 1 "suggestion_insert" "alice" []]], [], false⟩ := by
  refine ⟨?_, by decide, ?_⟩
  · intro a b d
    exact ⟨resolver_nothing .accept a b d false (Or.inr rfl),
           resolver_nothing .reject a b d false (Or.inr rfl)⟩
  · exact resolver_nothing .accept 0 1 _ false (Or.inr rfl)

/-- Claim C2: for every document snapshot and range the span locator
returns exactly one entry per distinct pending-insert/pending-delete
mark instance found on nodes overlapping the range (entries' marks are
distinct, and an instance has an entry iff it is of a suggestion kind
and occurs on an overlapping node); each entry's reported range is the
running min of node start positions and max of node end positions over
the occurrences of that instance; and a single mark instance split
across two nodes yields one merged span, as the concrete
"Hello [cat] world" document with a `pending-delete` mark split across
the nodes "ca" and "t" shows. -/
theorem claim_C2 (d : NDoc) (a b : Nat) :
    ((findSuggestionsInRange d a b).map MarkedRange.mark).Nodup
    ∧ (∀ mk : Mark, (∃ e ∈ findSuggestionsInRange d a b, e.mark = mk)
        ↔ (isSuggestionName mk.name = true ∧ ∃ v ∈ nodesBetween d a b, mk ∈ v.1.marks))
    ∧ (∀ e ∈ findSuggestionsInRange d a b,
        mmFold none (occsOf e.mark (nodesBetween d a b)) = some (e.fromPos, e.toPos))
    ∧ findSuggestionsInRange
        [Node.mk ['H', 'e', 'l', 'l', 'o', ' '] [],
         Node.mk ['c', 'a'] [Mark.mk 9 "suggestion_delete" "alice" []],
         Node.mk ['t'] [Mark.mk 9 "suggestion_delete" "alice" []],
         Node.mk [' ', 'w', 'o', 'r', 'l', 'd'] []] 0 15
      = [⟨Mark.mk 9 "suggestion_delete" "alice" [], 6, 9⟩] :=
  ⟨find_marks_nodup d a b, find_mark_mem_iff d a b,
   fun e he => find_value_mm d a b e he, by decide⟩

/-- Witness for C2: the merged-range conjunct applied to the split-mark
document at its unique span. -/
theorem claim_C2_witness :
    mmFold none (occsOf (Mark.mk 9 "suggestion_delete" "alice" [])
      (nodesBetween
        [Node.mk ['H', 'e', 'l', 'l', 'o', ' '] [],
         Node.mk ['c', 'a'] [Mark.mk 9 "suggestion_delete" "alice" []],
         Node.mk ['t'] [Mark.mk 9 "suggestion_delete" "alice" []],
         Node.mk [' ', 'w', 'o', 'r', 'l', 'd'] []] 0 15))
      = some (6, 9) :=
  (claim_C2
    [Node.mk ['H', 'e', 'l', 'l', 'o', ' '] [],
     Node.mk ['c', 'a'] [Mark.mk 9 "suggestion_delete" "alice" []],
     Node.mk ['t'] [Mark.mk 9 "suggestion_delete" "alice" []],
     Node.mk [' ', 'w', 'o', 'r', 'l', 'd'] []] 0 15).2.2.1
    ⟨Mark.mk 9 "suggestion_delete" "alice" [], 6, 9⟩ (by decide)

/-- Counterexample to claim C1 as stated: on a document whose single
character wears both a `suggestion_insert` and a `suggestion_delete`
mark (overlap across two authoring sessions, which the mark model
permits), accepting over the full range deletes the character, so the
located opposite-kind (`suggestion_insert`) span does not keep its
text: the resulting document is empty. -/
theorem claim_C1_counterexample :
    (⟨Mark.mk 1 "suggestion_insert" "alice" [], 0, 1⟩ : MarkedRange)
        ∈ findSuggestionsInRange
            [Node.mk ['x'] [Mark.mk 1 "suggestion_insert" "alice" [],
                            Mark.mk 2 "suggestion_delete" "bob" []]] 0 1
    ∧ (Mark.mk 1 "suggestion_insert" "alice" []).name ≠ markToDeleteOf .accept
    ∧ (processSuggestionsInRange .accept 0 1
        [Node.mk ['x'] [Mark.mk 1 "suggestion_insert" "alice" [],
                        Mark.mk 2 "suggestion_delete" "bob" []]] true).handled = true
    ∧ (processSuggestionsInRange .accept 0 1
        [Node.mk ['x'] [Mark.mk 1 "suggestion_insert" "alice" [],
                        Mark.mk 2 "suggestion_delete" "bob" []]] true).doc = [] := by
  refine ⟨by decide, by decide, by decide, by decide⟩

/-- Claim C1 (amended): for every dispatched accept/reject call whose
range contains pending spans, the resulting document is exactly the
character-level model of the located spans; every position inside a span
of the mark kind removed as content (`pending-delete` when accepting,
`pending-insert` when rejecting) is deleted; and every position inside a
span of the opposite kind that is not also covered by a span of the
removed kind keeps its character, stripped of that annotation mark. -/
theorem claim_C1_amended (ar : AR) (a b : Nat) (d : NDoc)
    (h : findSuggestionsInRange d a b ≠ []) :
    chars (processSuggestionsInRange ar a b d true).doc
      = modelGo (markToDeleteOf ar) (findSuggestionsInRange d a b) 0 (chars d)
    ∧ (∀ sp ∈ findSuggestionsInRange d a b, sp.mark.name = markToDeleteOf ar →
        ∀ p, sp.fromPos ≤ p → p < sp.toPos →
          aliveL (markToDeleteOf ar) (findSuggestionsInRange d a b) p = false)
    ∧ (∀ sp ∈ findSuggestionsInRange d a b, sp.mark.name ≠ markToDeleteOf ar →
        ∀ p, sp.fromPos ≤ p → p < sp.toPos →
          aliveL (markToDeleteOf ar) (findSuggestionsInRange d a b) p = true →
          ∀ hp : p < (chars d).length,
            (chars (processSuggestionsInRange ar a b d true).doc)[aliveBelow
                (markToDeleteOf ar) (findSuggestionsInRange d a b) p]?
              = some (stripC (markToDeleteOf ar) (findSuggestionsInRange d a b) p
                  ((chars d).get ⟨p, hp⟩))
            ∧ (stripC (markToDeleteOf ar) (findSuggestionsInRange d a b) p
                ((chars d).get ⟨p, hp⟩)).ch = ((chars d).get ⟨p, hp⟩).ch
            ∧ sp.mark ∉ (stripC (markToDeleteOf ar) (findSuggestionsInRange d a b) p
                ((chars d).get ⟨p, hp⟩)).marks) := by
  have hrun := resolver_run ar a b d h
  refine ⟨hrun.2.1, ?_, ?_⟩
  · intro sp hsp hname p hp1 hp2
    have hkill : killsP (markToDeleteOf ar) sp p = true := by
      rw [killsP_of_del hname]
      exact inRangeB_true hp1 hp2
    cases hal : aliveL (markToDeleteOf ar) (findSuggestionsInRange d a b) p
    · rfl
    · exfalso
      rw [aliveL, List.all_eq_true] at hal
      have := hal sp hsp
      rw [hkill] at this
      exact absurd this (by simp)
  · intro sp hsp hname p hp1 hp2 hal hp
    have hstriphit : stripL (markToDeleteOf ar) (findSuggestionsInRange d a b) p
        sp.mark.name = true := by
      rw [stripL, List.any_eq_true]
      refine ⟨sp, hsp, ?_⟩
      rw [stripHit]
      have h1 : (sp.mark.name != markToDeleteOf ar) = true := by simp [hname]
      have h2 : (decide (sp.fromPos ≤ p)) = true := by simp [hp1]
      have h3 : (decide (p < sp.toPos)) = true := by simp [hp2]
      rw [h1, h2, h3]
      simp
    refine ⟨?_, rfl, ?_⟩
    · rw [hrun.2.1]
      have := modelGo_get (markToDeleteOf ar) (findSuggestionsInRange d a b)
        (chars d) 0 p hp (by simpa using hal)
      simpa [aliveBelow] using this
    · intro hmem
      rw [stripC, List.mem_filter] at hmem
      rw [hstriphit] at hmem
      exact absurd hmem.2 (by simp)

/-- Witness for the amended C1: accepting over a two-node document with
one pending-insert span on "a" and one pending-delete span on "b"
deletes "b" and keeps a mark-free "a". -/
theorem claim_C1_amended_witness :
    chars (processSuggestionsInRange .accept 0 2
        [Node.mk ['a'] [Mark.mk 1 "suggestion_insert" "alice" []],
         Node.mk ['b'] [Mark.mk 2 "suggestion_delete" "bob" []]] true).doc
      = modelGo "suggestion_delete"
          (findSuggestionsInRange
            [Node.mk ['a'] [Mark.mk 1 "suggestion_insert" "alice" []],
             Node.mk ['b'] [Mark.mk 2 "suggestion_delete" "bob" []]] 0 2) 0
          (chars [Node.mk ['a'] [Mark.mk 1 "suggestion_insert" "alice" []],
                  Node.mk ['b'] [Mark.mk 2 "suggestion_delete" "bob" []]])
    ∧ aliveL "suggestion_delete"
        (findSuggestionsInRange
          [Node.mk ['a'] [Mark.mk 1 "suggestion_insert" "alice" []],
           Node.mk ['b'] [Mark.mk 2 "suggestion_delete" "bob" []]] 0 2) 1 = false := by
  have h := claim_C1_amended .accept 0 2
    [Node.mk ['a'] [Mark.mk 1 "suggestion_insert" "alice" []],
     Node.mk ['b'] [Mark.mk 2 "suggestion_delete" "bob" []]] (by decide)
  refine ⟨h.1, ?_⟩
  exact h.2.1 ⟨Mark.mk 2 "suggestion_delete" "bob" [], 1, 2⟩ (by decide) (by decide)
    1 (by decide) (by decide)

/-! ### Helpers for claim C3 -/

theorem specOps_getElem (dn : String) :
    ∀ (S : List MarkedRange) (P : List MarkedRange) (i : Nat) (hi : i < S.length),
      (specOps dn P S)[i]? = some (specOp dn (P ++ S.take i) (S.get ⟨i, hi⟩)) := by
  intro S
  induction S with
  | nil => intro P i hi; exact absurd hi (by simp)
  | cons sp S ih =>
    intro P i hi
    rcases i with _ | i
    · simp [specOps]
    · rw [specOps, List.getElem?_cons_succ]
      have := ih (P ++ [sp]) i (by simpa using hi)
      rw [this]
      have hassoc : (P ++ [sp]) ++ S.take i = P ++ (sp :: S).take (i + 1) := by
        rw [List.take_succ_cons]
        simp
      rw [hassoc]
      rfl

theorem specOps_take (dn : String) :
    ∀ (S : List MarkedRange) (P : List MarkedRange) (i : Nat),
      (specOps dn P S).take i = specOps dn P (S.take i) := by
  intro S
  induction S with
  | nil => intro P i; simp [specOps]
  | cons sp S ih =>
    intro P i
    rcases i with _ | i
    · simp [specOps]
    · rw [specOps, List.take_succ_cons, List.take_succ_cons, specOps, ih (P ++ [sp]) i]

theorem applyOps_spec (dn : String) (L : List CharM) :
    ∀ (S P : List MarkedRange) (d : NDoc),
      (∀ sp ∈ S, sp.fromPos ≤ sp.toPos) →
      chars d = modelGo dn P 0 L →
      chars (applyOps d (specOps dn P S)) = modelGo dn (P ++ S) 0 L := by
  intro S
  induction S with
  | nil => intro P d _ hd; simpa using hd
  | cons sp S ih =>
    intro P d hft hd
    have hft1 := hft sp (List.mem_cons_self sp S)
    rw [specOps,
      show applyOps d (specOp dn P sp :: specOps dn (P ++ [sp]) S)
        = applyOps (opApply d (specOp dn P sp)) (specOps dn (P ++ [sp]) S) from rfl,
      show P ++ sp :: S = (P ++ [sp]) ++ S from by simp]
    apply ih (P ++ [sp]) _ (fun x hx => hft x (List.mem_cons_of_mem sp hx))
    by_cases hdel : sp.mark.name = dn
    · have hbeq : (sp.mark.name == dn) = true := by simp [hdel]
      rw [specOp, if_pos hbeq,
        show opApply d (Op.delete (aliveBelow dn P sp.fromPos) (aliveBelow dn P sp.toPos))
          = deleteN (aliveBelow dn P sp.fromPos) (aliveBelow dn P sp.toPos) d from rfl,
        chars_deleteN, hd]
      exact model_delete dn hdel hft1 P L 0
    · have hbeq : (sp.mark.name == dn) = false := by simp [hdel]
      rw [specOp, if_neg (by rw [hbeq]; exact Bool.false_ne_true),
        show opApply d (Op.removeMarkOp (aliveBelow dn P sp.fromPos)
            (aliveBelow dn P sp.toPos) sp.mark.name)
          = removeMarkN (aliveBelow dn P sp.fromPos) (aliveBelow dn P sp.toPos)
              sp.mark.name d from rfl,
        chars_removeMarkN, hd]
      exact model_strip dn hdel hft1 P L 0

/-- Claim C3: in every dispatched accept/reject call, the operation
appended for the `i`-th located span carries that span's positions
translated through the edits of spans `0..i-1` (the semantic position
translation `aliveBelow` of the spans processed before it), and it is
applied to the document produced by exactly those earlier spans'
edits. -/
theorem claim_C3 (ar : AR) (a b : Nat) (d : NDoc)
    (h : findSuggestionsInRange d a b ≠ []) (i : Nat)
    (hi : i < (findSuggestionsInRange d a b).length) :
    (processSuggestionsInRange ar a b d true).ops[i]?
      = some (specOp (markToDeleteOf ar) ((findSuggestionsInRange d a b).take i)
          ((findSuggestionsInRange d a b).get ⟨i, hi⟩))
    ∧ chars (applyOps d ((processSuggestionsInRange ar a b d true).ops.take i))
        = modelGo (markToDeleteOf ar) ((findSuggestionsInRange d a b).take i) 0 (chars d) := by
  have hrun := resolver_run ar a b d h
  constructor
  · rw [hrun.2.2.1]
    have := specOps_getElem (markToDeleteOf ar) (findSuggestionsInRange d a b) [] i hi
    simpa using this
  · rw [hrun.2.2.1, specOps_take]
    have := applyOps_spec (markToDeleteOf ar) (chars d)
      ((findSuggestionsInRange d a b).take i) [] d
      (fun sp hsp => spans_from_le_to d a b sp ((List.take_sublist i _).mem hsp))
      (by rw [modelGo_nil_spans])
    simpa using this

/-- Witness for C3: in the two-span document of the amended C1 witness,
the second appended operation (a delete) carries the coordinates of the
second span translated through the first span's mark removal. -/
theorem claim_C3_witness :
    (processSuggestionsInRange .accept 0 2
        [Node.mk ['a'] [Mark.mk 1 "suggestion_insert" "alice" []],
         Node.mk ['b'] [Mark.mk 2 "suggestion_delete" "bob" []]] true).ops[1]?
      = some (specOp "suggestion_delete"
          ((findSuggestionsInRange
            [Node.mk ['a'] [Mark.mk 1 "suggestion_insert" "alice" []],
             Node.mk ['b'] [Mark.mk 2 "suggestion_delete" "bob" []]] 0 2).take 1)
          ((findSuggestionsInRange
            [Node.mk ['a'] [Mark.mk 1 "suggestion_insert" "alice" []],
             Node.mk ['b'] [Mark.mk 2 "suggestion_delete" "bob" []]] 0 2).get
              ⟨1, by decide⟩)) :=
  (claim_C3 .accept 0 2
    [Node.mk ['a'] [Mark.mk 1 "suggestion_insert" "alice" []],
     Node.mk ['b'] [Mark.mk 2 "suggestion_delete" "bob" []]] (by decide) 1 (by decide)).1

/-! ### Helpers for claim C7 -/

/-- After resolving all spans of the full document range, no surviving
character carries any suggestion mark: a character's marks come from its
node, the node is visited by the full-range walk, so each suggestion
mark on it is covered by a located span, which either deleted the
position or stripped the mark name. -/
theorem model_no_sugg (ar : AR) (d : NDoc) :
    ∀ c ∈ modelGo (markToDeleteOf ar) (findSuggestionsInRange d 0 (docSize d)) 0 (chars d),
      ∀ m ∈ c.marks, isSuggestionName m.name = false := by
  intro c hc m hm
  rcases modelGo_mem (markToDeleteOf ar) (findSuggestionsInRange d 0 (docSize d))
    (chars d) 0 c hc with ⟨j, hj, halive, hstrip⟩
  simp only [Nat.zero_add] at halive hstrip
  rw [hstrip, stripC] at hm
  rcases List.mem_filter.mp hm with ⟨hm0, hnostrip⟩
  cases hsugg : isSuggestionName m.name
  · rfl
  · exfalso
    rcases char_pos_node d 0 j hj with ⟨v, hv, hb1, hb2, c', hc', hcm⟩
    simp only [Nat.zero_add] at hb1 hb2
    have hc'eq : c' = (chars d).get ⟨j, hj⟩ := by
      rw [List.getElem?_eq_getElem hj] at hc'
      have := Option.some.inj hc'
      rw [← this]
      simp
    have hmv : m ∈ v.1.marks := by
      rw [← hcm, hc'eq]
      exact hm0
    have hvb : v ∈ nodesBetween d 0 (docSize d) := by
      rw [nodesBetween]
      refine List.mem_filter.mpr ⟨hv, ?_⟩
      have hjlen : j < docSize d := by
        rw [← chars_length]
        exact hj
      have hlt : v.2 < docSize d := by omega
      have hgt : 0 < v.2 + v.1.size := by omega
      simp [hlt, hgt]
    rcases find_covering d 0 (docSize d) v hvb m hmv hsugg with ⟨e, he, hemark, hcov1, hcov2⟩
    by_cases hname : m.name = markToDeleteOf ar
    · have hkill : killsP (markToDeleteOf ar) e j = true := by
        rw [killsP_of_del (by rw [hemark]; exact hname)]
        exact inRangeB_true (by omega) (by omega)
      rw [aliveL, List.all_eq_true] at halive
      have := halive e he
      rw [hkill] at this
      exact absurd this (by simp)
    · have hhit : stripHit (markToDeleteOf ar) e j m.name = true := by
        rw [stripHit]
        have h1 : (e.mark.name != markToDeleteOf ar) = true := by
          rw [hemark]
          simp [hname]
        have h2 : (decide (e.fromPos ≤ j)) = true := by
          simp
          omega
        have h3 : (decide (j < e.toPos)) = true := by
          simp
          omega
        have h4 : (m.name == e.mark.name) = true := by
          rw [hemark]
          simp
        rw [h1, h2, h3, h4]
        rfl
      have : stripL (markToDeleteOf ar) (findSuggestionsInRange d 0 (docSize d)) j
          m.name = true := by
        rw [stripL, List.any_eq_true]
        exact ⟨e, he, hhit⟩
      rw [this] at hnostrip
      exact absurd hnostrip (by simp)

/-- Claim C7: `acceptAllSuggestions` is idempotent: for every document
the second of two consecutive calls is a no-op that returns `false` and
leaves the document of the first call unchanged, because the first call
leaves no pending marks anywhere in the document. -/
theorem claim_C7 (d : NDoc) :
    acceptAllSuggestions (acceptAllSuggestions d true).doc true
      = ⟨false, (acceptAllSuggestions d true).doc, [], false⟩ := by
  by_cases h : findSuggestionsInRange d 0 (docSize d) = []
  · have h1 : acceptAllSuggestions d true = ⟨false, d, [], false⟩ :=
      resolver_nothing .accept 0 (docSize d) d true (Or.inl h)
    rw [h1]
    exact resolver_nothing .accept 0 (docSize d) d true (Or.inl h)
  · have hrun := resolver_run .accept 0 (docSize d) d h
    have hdoc : (acceptAllSuggestions d true).doc
        = (processSuggestionsInRange .accept 0 (docSize d) d true).doc := rfl
    have hWF : WFdoc (acceptAllSuggestions d true).doc := by
      rw [hdoc, hrun.2.2.2]
      exact foldl_resolveSpan_WF (markToDeleteOf .accept) _ _ h
    have hnos : ∀ c ∈ chars (acceptAllSuggestions d true).doc,
        ∀ m ∈ c.marks, isSuggestionName m.name = false := by
      rw [hdoc, hrun.2.1]
      exact model_no_sugg .accept d
    have hnodes : ∀ v ∈ nodesBetween (acceptAllSuggestions d true).doc 0
        (docSize (acceptAllSuggestions d true).doc),
        ∀ m ∈ v.1.marks, isSuggestionName m.name = false := by
      intro v hv m hm
      have hvd : v.1 ∈ (acceptAllSuggestions d true).doc :=
        nodesListFrom_mem_doc _ 0 v (List.mem_filter.mp hv).1
      rcases node_chars_mem v.1 hvd (hWF v.1 hvd) with ⟨c, hc, hcm⟩
      exact hnos c hc m (by rw [hcm]; exact hm)
    have hfind2 := find_empty_of_no_sugg (acceptAllSuggestions d true).doc 0
      (docSize (acceptAllSuggestions d true).doc) hnodes
    exact resolver_nothing .accept 0 _ _ true (Or.inl hfind2)

/-- Claim C9: a transaction whose merged session tracking flag is false,
or that carries the skip/bypass flag (`skipSuggestionOperation`, as set
on the resolver's own batches), or that is a history-replay transaction
(`history$` meta), is forwarded unchanged by the transformer: processing
it leaves the whole loop state — output operations, annotations, and
intermediate replay — exactly as it was. -/
theorem claim_C9 (ps : PluginState) (selFrom : Nat) (t : InTr) (rest : List InTr)
    (st : LoopState)
    (h : t.historyMeta = true ∨ (effMeta ps t.suggMeta).inSuggestionMode = false
      ∨ (effMeta ps t.suggMeta).skipSuggestionOperation = true) :
    goTrs ps selFrom (t :: rest) st = goTrs ps selFrom rest st := by
  rw [goTrs]
  rcases h with h | h | h
  · rw [if_pos h]
  · by_cases hh : t.historyMeta = true
    · rw [if_pos hh]
    · rw [if_neg hh]
      simp only [h, Bool.not_false, if_pos]
  · by_cases hh : t.historyMeta = true
    · rw [if_pos hh]
    · rw [if_neg hh]
      by_cases hm : (effMeta ps t.suggMeta).inSuggestionMode = true
      · simp only [hm, Bool.not_true, Bool.false_eq_true, if_neg, not_false_iff, h, if_pos]
      · have hm' : (effMeta ps t.suggMeta).inSuggestionMode = false := by
          cases hx : (effMeta ps t.suggMeta).inSuggestionMode
          · rfl
          · exact absurd hx hm
        simp only [hm', Bool.not_false, if_pos]

/-- Shared helper: branch behavior of `processStep` when an existing
suggestion mark covers `step.from`: the mark is extended over the
inserted range when the inserted size exceeds one, and nothing is done
otherwise; no mark is created in either case. -/
theorem processStep_existing (meta : EffMeta) (selFrom : Nat) (restMaps : List StepMap)
    (interDoc : NDoc) (step : Step) (out : OutTr) (m : Mark)
    (hfind : (marksAt interDoc (stepFrom step)).find? (fun x => isSuggestionName x.name)
      = some m) :
    processStep meta selFrom restMaps interDoc step out
      = if 1 < addedSliceSizeOf step (sliceN (stepFrom step) (stepTo step) interDoc) then
          { out.push (.addMark (stepFrom step)
              (stepFrom step + addedSliceSizeOf step
                (sliceN (stepFrom step) (stepTo step) interDoc)) m) with changed := true }
        else out := by
  simp only [processStep, hfind]

/-- Shared helper: a pure deletion step with no existing suggestion mark
at its position and a whitespace-only removed slice is ignored
entirely. -/
theorem processStep_deletion_ws (meta : EffMeta) (selFrom : Nat) (restMaps : List StepMap)
    (interDoc : NDoc) (f t : Nat) (out : OutTr)
    (hfind : (marksAt interDoc f).find? (fun x => isSuggestionName x.name) = none)
    (hws : (textOfSlice (sliceN f t interDoc)).all isWSChar = true) :
    processStep meta selFrom restMaps interDoc (.replace f t []) out = out := by
  simp only [processStep, stepFrom, stepTo, hfind, hws, addedSliceSizeOf]
  by_cases hsize : 0 < docSize (sliceN f t interDoc)
  · rw [if_pos hsize]
    simp
  · rw [if_neg hsize]
    simp [docSize]

/-- Shared helper: a pure deletion step with no existing suggestion mark
and a removed slice containing a non-whitespace character reinserts the
slice at the mapped position, wraps it with a fresh `suggestion_delete`
mark carrying the session's author and metadata, and restores the
selection on a backspace gesture. -/
theorem processStep_deletion_content (meta : EffMeta) (selFrom : Nat)
    (restMaps : List StepMap) (interDoc : NDoc) (f t : Nat) (out : OutTr)
    (hfind : (marksAt interDoc f).find? (fun x => isSuggestionName x.name) = none)
    (hws : (textOfSlice (sliceN f t interDoc)).all isWSChar = false) :
    processStep meta selFrom restMaps interDoc (.replace f t []) out
      = { (if selFrom == f then
             ((out.push (.replaceIns
                  (findNonStartingPos out.doc (mapMaps out.maps (mapMaps restMaps f)))
                  (sliceN f t interDoc))).push
               (.addMark
                  (findNonStartingPos out.doc (mapMaps out.maps (mapMaps restMaps f)))
                  (findNonStartingPos out.doc (mapMaps out.maps (mapMaps restMaps f))
                    + docSize (sliceN f t interDoc))
                  ⟨out.nextId, "suggestion_delete", meta.username, meta.data⟩)).push
               (.setSel (findNonStartingPos out.doc (mapMaps out.maps (mapMaps restMaps f))))
           else
             (out.push (.replaceIns
                  (findNonStartingPos out.doc (mapMaps out.maps (mapMaps restMaps f)))
                  (sliceN f t interDoc))).push
               (.addMark
                  (findNonStartingPos out.doc (mapMaps out.maps (mapMaps restMaps f)))
                  (findNonStartingPos out.doc (mapMaps out.maps (mapMaps restMaps f))
                    + docSize (sliceN f t interDoc))
                  ⟨out.nextId, "suggestion_delete", meta.username, meta.data⟩))
          with changed := true, nextId := out.nextId + 1 } := by
  have hsize : 0 < docSize (sliceN f t interDoc) := by
    rcases hne : sliceN f t interDoc with _ | ⟨n, rest⟩
    · rw [hne] at hws
      exact absurd hws (by simp [textOfSlice, chars])
    · have hWF2 : WFdoc (n :: rest) := by
        rw [← hne]
        exact sliceGo_WF f t interDoc 0
      have hn := hWF2 n (List.mem_cons_self n rest)
      rcases htext : n.text with _ | ⟨c, cs⟩
      · exact absurd htext hn
      · simp only [docSize, List.map_cons, List.sum_cons, Node.size, htext, List.length_cons]
        omega
  have hsize' : 0 < (List.map Node.size (sliceN f t interDoc)).sum := hsize
  simp only [processStep, stepFrom, stepTo, hfind, hws, addedSliceSizeOf,
    stepIsReplaceLike, stepSliceSize]
  simp [hsize', docSize]

/-! ### Slice decomposition helpers -/

theorem sliceGo_cons (a b pos : Nat) (n : Node) (rest : NDoc) :
    sliceGo a b pos (n :: rest)
      = (if max a pos < min b (pos + n.size) then
          [Node.mk ((n.text.drop (max a pos - pos)).take (min b (pos + n.size) - max a pos))
            n.marks] else [])
        ++ sliceGo a b (pos + n.size) rest := rfl

theorem docSize_cons (n : Node) (rest : NDoc) : docSize (n :: rest) = n.size + docSize rest := by
  simp [docSize]

theorem sliceGo_empty_of_le (a b : Nat) (h : b ≤ a) :
    ∀ (d : NDoc) (pos : Nat), sliceGo a b pos d = [] := by
  intro d
  induction d with
  | nil => intro pos; rfl
  | cons n rest ih =>
    intro pos
    rw [sliceGo_cons]
    have hguard : ¬ (max a pos < min b (pos + n.size)) := by
      have h1 : min b (pos + n.size) ≤ b := Nat.min_le_left _ _
      have h2 : a ≤ max a pos := Nat.le_max_left _ _
      omega
    rw [if_neg hguard, List.nil_append]
    exact ih (pos + n.size)

theorem sliceN_self (a : Nat) (d : NDoc) : sliceN a a d = [] :=
  sliceGo_empty_of_le a a (Nat.le_refl a) d 0

theorem sliceGo_append (a b : Nat) :
    ∀ (X Z : NDoc) (pos : Nat),
      sliceGo a b pos (X ++ Z) = sliceGo a b pos X ++ sliceGo a b (pos + docSize X) Z := by
  intro X
  induction X with
  | nil =>
    intro Z pos
    simp [sliceGo, docSize]
  | cons n rest ih =>
    intro Z pos
    rw [List.cons_append, sliceGo_cons, sliceGo_cons, ih Z (pos + n.size), docSize_cons,
      List.append_assoc, show pos + n.size + docSize rest = pos + (n.size + docSize rest)
        from by omega]

theorem sliceGo_all {M : NDoc} (hWF : WFdoc M) :
    ∀ (pos a b : Nat), a ≤ pos → pos + docSize M ≤ b → sliceGo a b pos M = M := by
  induction M with
  | nil => intro pos a b _ _; rfl
  | cons n rest ih =>
    intro pos a b ha hb
    rw [docSize_cons] at hb
    have hmax : max a pos = pos := Nat.max_eq_right ha
    have hmin : min b (pos + n.size) = pos + n.size := Nat.min_eq_right (by omega)
    have hsz : 0 < n.size := by
      have := hWF n (List.mem_cons_self n rest)
      rcases htext : n.text with _ | ⟨c, cs⟩
      · exact absurd htext this
      · simp [Node.size, htext]
    rw [sliceGo_cons, hmax, hmin, if_pos (by omega)]
    have hnode : Node.mk ((n.text.drop (pos - pos)).take (pos + n.size - pos)) n.marks = n := by
      have h1 : pos - pos = 0 := by omega
      have h2 : pos + n.size - pos = n.size := by omega
      have h3 : List.take n.size n.text = n.text := by
        rw [show n.size = n.text.length from rfl]
        exact List.take_length n.text
      rw [h1, h2, List.drop_zero, h3]
    rw [hnode, ih (fun x hx => hWF x (List.mem_cons_of_mem n hx)) (pos + n.size) a b
      (by omega) (by omega)]
    rfl

theorem sliceGo_after {M : NDoc} :
    ∀ (pos a b : Nat), pos + docSize M ≤ a → sliceGo a b pos M = [] := by
  induction M with
  | nil => intro pos a b _; rfl
  | cons n rest ih =>
    intro pos a b ha
    rw [docSize_cons] at ha
    have hguard : ¬ (max a pos < min b (pos + n.size)) := by
      have h1 : min b (pos + n.size) ≤ pos + n.size := Nat.min_le_right _ _
      have h2 : a ≤ max a pos := Nat.le_max_left _ _
      omega
    rw [sliceGo_cons, if_neg hguard, List.nil_append]
    exact ih (pos + n.size) a b (by omega)

theorem sliceGo_before {M : NDoc} :
    ∀ (pos a b : Nat), b ≤ pos → sliceGo a b pos M = [] := by
  induction M with
  | nil => intro pos a b _; rfl
  | cons n rest ih =>
    intro pos a b hb
    have hguard : ¬ (max a pos < min b (pos + n.size)) := by
      have h1 : min b (pos + n.size) ≤ b := Nat.min_le_left _ _
      have h2 : pos ≤ max a pos := Nat.le_max_right _ _
      omega
    rw [sliceGo_cons, if_neg hguard, List.nil_append]
    exact ih (pos + n.size) a b (by omega)

theorem nodesListFrom_append :
    ∀ (X Z : NDoc) (k : Nat),
      nodesListFrom k (X ++ Z) = nodesListFrom k X ++ nodesListFrom (k + docSize X) Z := by
  intro X
  induction X with
  | nil => intro Z k; simp [nodesListFrom, docSize]
  | cons n rest ih =>
    intro Z k
    rw [List.cons_append, nodesListFrom, nodesListFrom, ih Z (k + n.size), docSize_cons,
      List.cons_append, show k + n.size + docSize rest = k + (n.size + docSize rest)
        from by omega]

theorem nodesListFrom_bounds :
    ∀ (X : NDoc) (k : Nat), ∀ v ∈ nodesListFrom k X,
      k ≤ v.2 ∧ v.2 + v.1.size ≤ k + docSize X := by
  intro X
  induction X with
  | nil => intro k v hv; exact absurd hv (by simp [nodesListFrom])
  | cons n rest ih =>
    intro k v hv
    rw [nodesListFrom] at hv
    rcases List.mem_cons.mp hv with h | h
    · rw [h, docSize_cons]
      refine ⟨Nat.le_refl k, ?_⟩
      show k + n.size ≤ k + (n.size + docSize rest)
      omega
    · have := ih (k + n.size) v h
      rw [docSize_cons]
      omega

/-- Visiting the exact extent of the middle insert of a three-part
document yields exactly the middle node. -/
theorem nodesBetween_mid (X Y : NDoc) (mid : Node) (hsz : 0 < mid.size) :
    nodesBetween (X ++ [mid] ++ Y) (docSize X) (docSize X + mid.size)
      = [(mid, docSize X)] := by
  unfold nodesBetween nodesList
  rw [nodesListFrom_append (X ++ [mid]) Y 0, nodesListFrom_append X [mid] 0,
    List.append_assoc]
  rw [List.filter_append, List.filter_append]
  have hX : (nodesListFrom 0 X).filter
      (fun v => decide (v.2 < docSize X + mid.size) && decide (docSize X < v.2 + v.1.size))
      = [] := by
    rw [List.filter_eq_nil_iff]
    intro v hv
    have := nodesListFrom_bounds X 0 v hv
    simp only [Bool.and_eq_true, decide_eq_true_eq, not_and]
    intro _
    omega
  have hmid : (nodesListFrom (0 + docSize X) [mid]).filter
      (fun v => decide (v.2 < docSize X + mid.size) && decide (docSize X < v.2 + v.1.size))
      = [(mid, docSize X)] := by
    rw [Nat.zero_add, nodesListFrom, nodesListFrom]
    rw [List.filter_cons]
    have hc : (decide (docSize X < docSize X + mid.size)
        && decide (docSize X < docSize X + mid.size)) = true := by
      simp
      omega
    rw [if_pos ?_]
    · rfl
    · simp
      omega
  have hY : (nodesListFrom (0 + docSize (X ++ [mid])) Y).filter
      (fun v => decide (v.2 < docSize X + mid.size) && decide (docSize X < v.2 + v.1.size))
      = [] := by
    rw [List.filter_eq_nil_iff]
    intro v hv
    have hb := nodesListFrom_bounds Y _ v hv
    have hX2 : docSize (X ++ [mid]) = docSize X + mid.size := by
      rw [docSize_append]
      simp [docSize]
    rw [hX2] at hb
    simp only [Bool.and_eq_true, decide_eq_true_eq, not_and]
    intro hlt
    omega
  rw [hX, hmid, hY]
  simp

/-- The transformer's output for a single tracked insertion at a
position with no existing suggestion mark: it wraps the inserted range
with one freshly created `suggestion_insert` mark carrying the session
attribution. -/
theorem appendTransaction_single_insert (ps : PluginState) (selFrom freshBase : Nat)
    (d : NDoc) (p : Nat) (slc : NDoc)
    (hps : ps.inSuggestionMode = true)
    (hnm : (marksAt d p).find? (fun x => isSuggestionName x.name) = none)
    (hs : 0 < docSize slc) :
    ∃ out, appendTransaction ps selFrom freshBase
        [⟨false, none, [Step.replace p p slc]⟩] d = some out
      ∧ out.doc = addMarkN p (p + docSize slc)
          ⟨freshBase, "suggestion_insert", ps.username, ps.data⟩
          (replaceN p p slc d) := by
  obtain ⟨psin, psu, psd⟩ := ps
  have hpsin : psin = true := hps
  subst hpsin
  have hslice : sliceN p p d = [] := sliceN_self p d
  have hstep : processStep ⟨true, false, psu, psd⟩ selFrom
      [stepMapOf (Step.replace p p slc)] d (Step.replace p p slc)
      ⟨replaceN p p slc d, [], [], false, freshBase⟩
      = { (OutTr.mk (replaceN p p slc d) [] [] false freshBase).push
            (.addMark p (p + docSize slc)
              ⟨freshBase, "suggestion_insert", psu, psd⟩) with
          changed := true, nextId := freshBase + 1 } := by
    simp only [processStep, stepFrom, stepTo, hslice, hnm, addedSliceSizeOf]
    have hz : ¬ (0 < docSize ([] : NDoc)) := by simp [docSize]
    rw [if_neg hz]
    have hs2 : 0 < (List.map Node.size slc).sum := hs
    simp [docSize, hs2]
  have happ : appendTransaction ⟨true, psu, psd⟩ selFrom freshBase
      [⟨false, none, [Step.replace p p slc]⟩] d
      = if (processStep ⟨true, false, psu, psd⟩ selFrom
            [stepMapOf (Step.replace p p slc)] d (Step.replace p p slc)
            ⟨replaceN p p slc d, [], [], false, freshBase⟩).changed = true
        then some (processStep ⟨true, false, psu, psd⟩ selFrom
            [stepMapOf (Step.replace p p slc)] d (Step.replace p p slc)
            ⟨replaceN p p slc d, [], [], false, freshBase⟩)
        else none := rfl
  rw [happ, hstep]
  exact ⟨_, by rw [if_pos rfl], rfl⟩

/-- Shared helper for C8: the three-part slice decomposition of the
marked document built by a tracked single insertion, and the resulting
span location and rejection. -/
theorem insert_then_reject (d : NDoc) (p : Nat) (s : List Char) (im : List Mark)
    (M1 : Mark) (hM1 : M1.name = "suggestion_insert")
    (hp : p ≤ docSize d) (hs : s ≠ [])
    (him : ∀ m ∈ im, isSuggestionName m.name = false)
    (hM1im : M1 ∉ im) :
    (rejectSuggestionsInRange p (p + s.length)
        (addMarkN p (p + s.length) M1 (replaceN p p [Node.mk s im] d)) true).handled = true
    ∧ chars (rejectSuggestionsInRange p (p + s.length)
        (addMarkN p (p + s.length) M1 (replaceN p p [Node.mk s im] d)) true).doc
      = chars d := by
  have hX : docSize (sliceN 0 p d) = p := by
    rw [← chars_length, chars_sliceN]
    have := chars_length d
    simp only [List.drop_zero, List.length_take]
    omega
  have hY : chars (sliceN p (docSize d) d) = (chars d).drop p := by
    rw [chars_sliceN, chars_take_docSize]
  have hXc : chars (sliceN 0 p d) = (chars d).take p := by
    rw [chars_sliceN, List.drop_zero]
  have hWX : WFdoc (sliceN 0 p d) := sliceGo_WF 0 p d 0
  have hWY : WFdoc (sliceN p (docSize d) d) := sliceGo_WF p (docSize d) d 0
  have hWslc : WFdoc [Node.mk s im] := by
    intro n hn
    rw [List.mem_singleton] at hn
    rw [hn]
    exact hs
  have hds : docSize [Node.mk s im] = s.length := by simp [docSize, Node.size]
  have hszpos : 0 < s.length := by
    rcases s with _ | ⟨c, cs⟩
    · exact absurd rfl hs
    · simp
  -- the document after the tracked insertion, in three-part form
  have hmarkset : addMarkToSet M1 im = M1 :: im := by
    rw [addMarkToSet, if_neg hM1im]
    congr 1
    rw [List.filter_eq_self]
    intro x hx
    have := him x hx
    simp only [decide_eq_true_eq]
    intro hxeq
    rw [hxeq, hM1] at this
    exact absurd this (by simp [isSuggestionName])
  have hrepl : replaceN p p [Node.mk s im] d
      = sliceN 0 p d ++ [Node.mk s im] ++ sliceN p (docSize d) d := rfl
  have hD1 : sliceN 0 p (sliceN 0 p d ++ ([Node.mk s im] ++ sliceN p (docSize d) d))
      = sliceN 0 p d := by
    rw [sliceN, sliceGo_append, sliceGo_all hWX 0 0 p (Nat.le_refl 0) (by omega),
      sliceGo_before (0 + docSize (sliceN 0 p d)) 0 p (by omega), List.append_nil]
  have hD2 : sliceN p (p + s.length)
      (sliceN 0 p d ++ ([Node.mk s im] ++ sliceN p (docSize d) d))
      = [Node.mk s im] := by
    rw [sliceN, sliceGo_append, sliceGo_after 0 p (p + s.length) (by omega),
      List.nil_append, sliceGo_append,
      sliceGo_all hWslc (0 + docSize (sliceN 0 p d)) p (p + s.length) (by omega)
        (by rw [hX, hds]; omega),
      sliceGo_before (0 + docSize (sliceN 0 p d) + docSize [Node.mk s im]) p
        (p + s.length) (by rw [hX, hds]; omega),
      List.append_nil]
  have hD3 : sliceN (p + s.length)
      (docSize (sliceN 0 p d ++ ([Node.mk s im] ++ sliceN p (docSize d) d)))
      (sliceN 0 p d ++ ([Node.mk s im] ++ sliceN p (docSize d) d))
      = sliceN p (docSize d) d := by
    rw [sliceN, sliceGo_append, sliceGo_after 0 (p + s.length) _ (by omega),
      List.nil_append, sliceGo_append,
      sliceGo_after (0 + docSize (sliceN 0 p d)) (p + s.length) _ (by rw [hX, hds]; omega),
      List.nil_append]
    apply sliceGo_all hWY
    · rw [hX, hds]
      omega
    · rw [docSize_append, docSize_append, hX, hds]
      omega
  have haddN : addMarkN p (p + s.length) M1 (replaceN p p [Node.mk s im] d)
      = sliceN 0 p d ++ [Node.mk s (M1 :: im)] ++ sliceN p (docSize d) d := by
    rw [hrepl, List.append_assoc, addMarkN, hD1, hD2, hD3]
    rw [show addNodes M1 [Node.mk s im] = [Node.mk s (addMarkToSet M1 im)] from rfl,
      hmarkset]
  rw [haddN]
  -- locating spans over the inserted range finds exactly the new mark
  have hmid : (Node.mk s (M1 :: im)).size = s.length := rfl
  have hnb : nodesBetween (sliceN 0 p d ++ [Node.mk s (M1 :: im)]
        ++ sliceN p (docSize d) d) p (p + s.length)
      = [(Node.mk s (M1 :: im), p)] := by
    have := nodesBetween_mid (sliceN 0 p d) (sliceN p (docSize d) d)
      (Node.mk s (M1 :: im)) (by rw [hmid]; omega)
    rw [hX, hmid] at this
    exact this
  have hfind : findSuggestionsInRange (sliceN 0 p d ++ [Node.mk s (M1 :: im)]
        ++ sliceN p (docSize d) d) p (p + s.length)
      = [⟨M1, p, p + s.length⟩] := by
    unfold findSuggestionsInRange
    rw [hnb]
    have hsugg : isSuggestionName M1.name = true := by
      rw [hM1]
      rfl
    have haccum : accumAll [] [(Node.mk s (M1 :: im), p)]
        = [(M1, p, p + s.length)] := by
      show accumNode p (p + (Node.mk s (M1 :: im)).size) [] (M1 :: im) = _
      rw [accumNode, List.foldl_cons, if_pos hsugg]
      rw [show updateRange [] M1 p (p + (Node.mk s (M1 :: im)).size)
          = [(M1, p, p + s.length)] from rfl]
      show accumNode p (p + (Node.mk s (M1 :: im)).size) [(M1, p, p + s.length)] im = _
      rw [accumNode_no_sugg p _ im him]
    rw [haccum]
    rfl
  -- rejecting that range deletes exactly the inserted slice
  have hbeq : (M1.name == markToDeleteOf .reject) = true := by
    rw [hM1]
    rfl
  have hrej : rejectSuggestionsInRange p (p + s.length)
      (sliceN 0 p d ++ [Node.mk s (M1 :: im)] ++ sliceN p (docSize d) d) true
      = ⟨true, deleteN p (p + s.length)
          (sliceN 0 p d ++ [Node.mk s (M1 :: im)] ++ sliceN p (docSize d) d),
         [.delete p (p + s.length)], true⟩ := by
    rw [rejectSuggestionsInRange, processSuggestionsInRange, hfind]
    rw [show ([(⟨M1, p, p + s.length⟩ : MarkedRange)].isEmpty || !true) = false from rfl]
    rw [if_neg (by simp)]
    rw [List.foldl_cons, List.foldl_nil, resolveSpan]
    rw [show mapMaps ([] : List StepMap) p = p from rfl,
      show mapMaps ([] : List StepMap) (p + s.length) = p + s.length from rfl]
    rw [if_pos hbeq]
    rfl
  rw [hrej]
  refine ⟨rfl, ?_⟩
  have hlenX : ((chars d).take p).length = p := by
    have := chars_length d
    simp only [List.length_take]
    omega
  have hcd : chars (sliceN 0 p d ++ [Node.mk s (M1 :: im)] ++ sliceN p (docSize d) d)
      = ((chars d).take p ++ (Node.mk s (M1 :: im)).text.map
          (fun c => CharM.mk c (M1 :: im)))
        ++ (chars d).drop p := by
    rw [chars_append, chars_append, hXc, hY]
    rw [show chars [Node.mk s (M1 :: im)]
        = (Node.mk s (M1 :: im)).text.map (fun c => CharM.mk c (M1 :: im)) from by
      simp [chars]]
  show chars (deleteN p (p + s.length) _) = chars d
  rw [chars_deleteN, hcd]
  have hlenmid : ((chars d).take p ++ (Node.mk s (M1 :: im)).text.map
      (fun c => CharM.mk c (M1 :: im))).length = p + s.length := by
    rw [List.length_append, hlenX]
    simp
  rw [List.drop_left' hlenmid, List.append_assoc, List.take_left' hlenX]
  exact List.take_append_drop p (chars d)

/-- Claim C8: round trip for insertions — for every document, typing
text while tracking is enabled (a single replace step inserting a
non-empty text node whose inline marks carry no suggestion, at a
position with no suggestion mark) makes `appendTransaction` produce a
batch whose document wraps the inserted range in a fresh
`suggestion_insert` mark, and rejecting exactly that range afterwards
restores the document byte-for-byte (characters and their marks) to its
pre-typing content. -/
theorem claim_C8 (ps : PluginState) (selFrom freshBase : Nat)
    (d : NDoc) (p : Nat) (s : List Char) (im : List Mark)
    (hps : ps.inSuggestionMode = true)
    (hp : p ≤ docSize d) (hs : s ≠ [])
    (hnm : ∀ m ∈ marksAt d p, isSuggestionName m.name = false)
    (him : ∀ m ∈ im, isSuggestionName m.name = false) :
    ∃ out, appendTransaction ps selFrom freshBase
        [⟨false, none, [Step.replace p p [Node.mk s im]]⟩] d = some out
      ∧ (rejectSuggestionsInRange p (p + s.length) out.doc true).handled = true
      ∧ chars (rejectSuggestionsInRange p (p + s.length) out.doc true).doc
        = chars d := by
  have hnm' : (marksAt d p).find? (fun x => isSuggestionName x.name) = none := by
    apply List.find?_eq_none.mpr
    intro x hx
    rw [hnm x hx]
    exact Bool.false_ne_true
  have hds : docSize [Node.mk s im] = s.length := rfl
  have hsz : 0 < docSize [Node.mk s im] := by
    rw [hds]
    exact List.length_pos.mpr hs
  obtain ⟨out, hout, hdoc⟩ :=
    appendTransaction_single_insert ps selFrom freshBase d p [Node.mk s im] hps hnm' hsz
  have hM1im : (⟨freshBase, "suggestion_insert", ps.username, ps.data⟩ : Mark) ∉ im := by
    intro hmem
    have h1 := him _ hmem
    rw [show isSuggestionName
        (Mark.mk freshBase "suggestion_insert" ps.username ps.data).name = true from rfl] at h1
    exact Bool.noConfusion h1
  have hmain := insert_then_reject d p s im
    ⟨freshBase, "suggestion_insert", ps.username, ps.data⟩ rfl hp hs him hM1im
  refine ⟨out, hout, ?_, ?_⟩
  · rw [hdoc, hds]
    exact hmain.1
  · rw [hdoc, hds]
    exact hmain.2

/-- Witness for claim C8 at a concrete input: typing `xy` at position 1
of the unmarked document `ab` and rejecting the typed range restores
`ab` exactly. -/
theorem claim_C8_witness :
    ∃ out, appendTransaction ⟨true, "alice", []⟩ 0 10
        [⟨false, none, [Step.replace 1 1 [Node.mk ['x', 'y'] []]]⟩]
        [Node.mk ['a', 'b'] []] = some out
      ∧ (rejectSuggestionsInRange 1 (1 + (['x', 'y'] : List Char).length)
          out.doc true).handled = true
      ∧ chars (rejectSuggestionsInRange 1 (1 + (['x', 'y'] : List Char).length)
          out.doc true).doc = chars [Node.mk ['a', 'b'] []] :=
  claim_C8 ⟨true, "alice", []⟩ 0 10 [Node.mk ['a', 'b'] []] 1 ['x', 'y'] []
    rfl (by decide) (by decide) (by decide) (by decide)

/-- Claim C4: for every step processed under tracking whose start
position already carries a suggestion mark, the transformer extends that
existing mark instance over the inserted range (appending one `addMark`
with the existing mark) exactly when the inserted size exceeds a single
boundary-touch, does nothing otherwise, and creates no new mark in
either case (`nextId` is unchanged); and in the concrete two-keystroke
session, typing `x` then the adjacent `y` yields a final document whose
characters both wear the single `suggestion_insert` instance created by
the first keystroke — the second call appends nothing (`null`), and
exactly one suggestion mark instance exists. -/
theorem claim_C4 :
    (∀ (meta : EffMeta) (selFrom : Nat) (restMaps : List StepMap) (interDoc : NDoc)
        (step : Step) (out : OutTr) (m : Mark),
      (marksAt interDoc (stepFrom step)).find? (fun x => isSuggestionName x.name) = some m →
      ((1 < addedSliceSizeOf step (sliceN (stepFrom step) (stepTo step) interDoc) →
          (processStep meta selFrom restMaps interDoc step out).ops
            = out.ops ++ [Op.addMark (stepFrom step)
                (stepFrom step + addedSliceSizeOf step
                  (sliceN (stepFrom step) (stepTo step) interDoc)) m])
        ∧ (addedSliceSizeOf step (sliceN (stepFrom step) (stepTo step) interDoc) ≤ 1 →
            processStep meta selFrom restMaps interDoc step out = out)
        ∧ (processStep meta selFrom restMaps interDoc step out).nextId = out.nextId))
    ∧ (appendTransaction ⟨true, "alice", []⟩ 1 10
        [⟨false, none, [Step.replace 0 0 [Node.mk ['x'] []]]⟩] []).map OutTr.doc
      = some [Node.mk ['x'] [Mark.mk 10 "suggestion_insert" "alice" []]]
    ∧ (appendTransaction ⟨true, "alice", []⟩ 2 11
        [⟨false, none, [Step.replace 1 1
          [Node.mk ['y'] [Mark.mk 10 "suggestion_insert" "alice" []]]]⟩]
        [Node.mk ['x'] [Mark.mk 10 "suggestion_insert" "alice" []]]).isNone = true
    ∧ applyAllTrs [Node.mk ['x'] [Mark.mk 10 "suggestion_insert" "alice" []]]
        [⟨false, none, [Step.replace 1 1
          [Node.mk ['y'] [Mark.mk 10 "suggestion_insert" "alice" []]]]⟩]
      = [Node.mk ['x'] [Mark.mk 10 "suggestion_insert" "alice" []],
         Node.mk ['y'] [Mark.mk 10 "suggestion_insert" "alice" []]]
    ∧ suggMarksOf
        [Node.mk ['x'] [Mark.mk 10 "suggestion_insert" "alice" []],
         Node.mk ['y'] [Mark.mk 10 "suggestion_insert" "alice" []]]
      = [Mark.mk 10 "suggestion_insert" "alice" []] := by
  refine ⟨?_, by decide, by decide, by decide, by decide⟩
  intro meta selFrom restMaps interDoc step out m hfind
  have heq := processStep_existing meta selFrom restMaps interDoc step out m hfind
  refine ⟨?_, ?_, ?_⟩
  · intro hsz
    rw [heq, if_pos hsz]
    rfl
  · intro hsz
    rw [heq, if_neg (by omega)]
  · rw [heq]
    by_cases hsz : 1 < addedSliceSizeOf step (sliceN (stepFrom step) (stepTo step) interDoc)
    · rw [if_pos hsz]
      rfl
    · rw [if_neg hsz]

/-- Witness for C4's general part: extending an existing mark over a
two-character insertion appends exactly one `addMark` with the existing
instance. -/
theorem claim_C4_witness :
    (processStep ⟨true, false, "alice", []⟩ 0 []
        [Node.mk ['a'] [Mark.mk 3 "suggestion_insert" "alice" []]]
        (Step.replace 1 1 [Node.mk ['y', 'z'] []])
        ⟨[Node.mk ['a'] [Mark.mk 3 "suggestion_insert" "alice" []],
          Node.mk ['y', 'z'] []], [], [], false, 7⟩).ops
      = [Op.addMark 1 3 (Mark.mk 3 "suggestion_insert" "alice" [])] := by
  have h := (claim_C4.1 ⟨true, false, "alice", []⟩ 0 []
    [Node.mk ['a'] [Mark.mk 3 "suggestion_insert" "alice" []]]
    (Step.replace 1 1 [Node.mk ['y', 'z'] []])
    ⟨[Node.mk ['a'] [Mark.mk 3 "suggestion_insert" "alice" []],
      Node.mk ['y', 'z'] []], [], [], false, 7⟩
    (Mark.mk 3 "suggestion_insert" "alice" []) (by decide)).1 (by decide)
  rw [h]
  decide

/-- Claim C5: for every tracked pure deletion (a replace step with an
empty slice) processed with no existing suggestion mark at its position:
if the removed slice consists only of whitespace characters the
transformer ignores the step entirely (no reinsertion, no annotation, no
change); if it contains a non-whitespace character, the slice is
reinserted at the mapped position and wrapped with a freshly created
`suggestion_delete` mark carrying the session's author and metadata
(plus a selection restore on a backspace gesture). -/
theorem claim_C5 (meta : EffMeta) (selFrom : Nat) (restMaps : List StepMap)
    (interDoc : NDoc) (f t : Nat) (out : OutTr)
    (hfind : (marksAt interDoc f).find? (fun x => isSuggestionName x.name) = none) :
    ((textOfSlice (sliceN f t interDoc)).all isWSChar = true →
      processStep meta selFrom restMaps interDoc (.replace f t []) out = out)
    ∧ ((textOfSlice (sliceN f t interDoc)).all isWSChar = false →
      (processStep meta selFrom restMaps interDoc (.replace f t []) out).ops
        = out.ops
          ++ [Op.replaceIns
                (findNonStartingPos out.doc (mapMaps out.maps (mapMaps restMaps f)))
                (sliceN f t interDoc),
              Op.addMark
                (findNonStartingPos out.doc (mapMaps out.maps (mapMaps restMaps f)))
                (findNonStartingPos out.doc (mapMaps out.maps (mapMaps restMaps f))
                  + docSize (sliceN f t interDoc))
                ⟨out.nextId, "suggestion_delete", meta.username, meta.data⟩]
          ++ (if selFrom == f then
                [Op.setSel (findNonStartingPos out.doc (mapMaps out.maps (mapMaps restMaps f)))]
              else [])
      ∧ (processStep meta selFrom restMaps interDoc (.replace f t []) out).nextId
          = out.nextId + 1
      ∧ (processStep meta selFrom restMaps interDoc (.replace f t []) out).changed = true) := by
  constructor
  · intro hws
    exact processStep_deletion_ws meta selFrom restMaps interDoc f t out hfind hws
  · intro hws
    have heq := processStep_deletion_content meta selFrom restMaps interDoc f t out hfind hws
    rw [heq]
    by_cases hsel : (selFrom == f) = true
    · rw [if_pos hsel, if_pos hsel]
      refine ⟨?_, rfl, rfl⟩
      simp [OutTr.push]
    · rw [if_neg hsel, if_neg hsel]
      refine ⟨?_, rfl, rfl⟩
      simp [OutTr.push]

/-- Witness for C5: deleting the space of " b" under tracking at a
position with no existing mark is suppressed (whitespace-only slice),
applying the whitespace conjunct at a concrete document. -/
theorem claim_C5_witness :
    processStep ⟨true, false, "alice", []⟩ 0 [] [Node.mk [' ', 'b'] []]
      (Step.replace 0 1 []) ⟨[Node.mk ['b'] []], [], [], false, 4⟩
    = ⟨[Node.mk ['b'] []], [], [], false, 4⟩ :=
  (claim_C5 ⟨true, false, "alice", []⟩ 0 [] [Node.mk [' ', 'b'] []] 0 1
    ⟨[Node.mk ['b'] []], [], [], false, 4⟩ (by decide)).1 (by decide)

/-- Witness for C9: a history-flagged transaction with one step
contributes nothing — running the loop over just that transaction
returns the initial state. -/
theorem claim_C9_witness :
    goTrs ⟨true, "alice", []⟩ 0
      [⟨true, none, [Step.replace 0 0 [Node.mk ['z'] []]]⟩]
      ⟨[], none, ⟨[Node.mk ['z'] []], [], [], false, 0⟩⟩
    = ⟨[], none, ⟨[Node.mk ['z'] []], [], [], false, 0⟩⟩ := by
  rw [claim_C9 ⟨true, "alice", []⟩ 0 ⟨true, none, [Step.replace 0 0 [Node.mk ['z'] []]]⟩ []
    ⟨[], none, ⟨[Node.mk ['z'] []], [], [], false, 0⟩⟩ (Or.inl rfl)]
  rfl

end SuggMode
